import Mathlib

/-!
Verification development for the freud cell-list neighbor search engine
(`cpp/locality/LinkCell.cc`) and the generic pairwise correlation
accumulation framework (`cpp/density/CorrelationFunction.cc`).

Machine floats are embedded as exact rationals (`ℚ`); `sqrt` never needs to
be taken because every comparison the code performs on a distance is
mirrored here on the squared distance (`sqrt` is strictly monotone on
nonnegative reals, so the two orders agree).  A `NeighborBond` therefore
stores the squared distance `r_sq` where the C++ object stores
`sqrt(r_sq)`.

Code that lives in headers that are not part of the source sample
(`Box.h`, `LinkCell.h`, `NeighborQuery.h`, `ManagedArray.h`) is modelled
from the specification; each such definition carries a doc comment
starting with `Modelled from the spec:`.
-/

namespace Freud

/-- A 3-vector of exact rationals, standing for `vec3<float>`. -/
structure Vec3 where
  x : ℚ
  y : ℚ
  z : ℚ
deriving DecidableEq, Repr

/-- Modelled from the spec: the `Box` collaborator (spec §2, §6) is an
orthorhombic periodic simulation box (`Box.h` is not in the source sample).
It exposes exactly the operations the spec lists: `wrap`,
`getNearestPlaneDistance` (for an orthorhombic box this is the triple of
side lengths) and `is2D`. -/
structure Box where
  Lx : ℚ
  Ly : ℚ
  Lz : ℚ
  is2D : Bool
deriving DecidableEq, Repr

/-- Modelled from the spec: one-dimensional minimum-image wrap.  Returns the
representative of `x` modulo `L` lying in `[-L/2, L/2)`, i.e. the shortest
displacement among all periodic images (spec glossary "Minimum image"). -/
def wrap1 (L x : ℚ) : ℚ := x - L * ⌊x / L + 1/2⌋

/-- Modelled from the spec: `Box::wrap`.  Periodic axes are wrapped by the
minimum image convention; in 2D mode the z axis is not periodic and is left
untouched. -/
def Box.wrap (b : Box) (v : Vec3) : Vec3 :=
  { x := wrap1 b.Lx v.x
    y := wrap1 b.Ly v.y
    z := if b.is2D then v.z else wrap1 b.Lz v.z }

/-- Modelled from the spec: `Box::getNearestPlaneDistance` of an
orthorhombic box is the triple of side lengths. -/
def Box.nearestPlaneDistance (b : Box) : Vec3 := ⟨b.Lx, b.Ly, b.Lz⟩

/-- Vector difference, `p - q`. -/
def Vec3.sub (p q : Vec3) : Vec3 := ⟨p.x - q.x, p.y - q.y, p.z - q.z⟩

/-- `dot(v, v)`: squared norm. -/
def Vec3.normSq (v : Vec3) : ℚ := v.x * v.x + v.y * v.y + v.z * v.z

/-- The squared minimum-image distance `dot(r_ij, r_ij)` for
`r_ij = box.wrap(p - q)`, as computed in `LinkCellQueryBallIterator::next`
and `LinkCellQueryIterator::next`. -/
def wrappedDistSq (b : Box) (p q : Vec3) : ℚ := ((b.wrap (p.sub q)).normSq)

/-- Errors thrown by the embedded code; every `throw std::runtime_error` /
`std::invalid_argument` raised by the sampled sources becomes the
`InvalidConfiguration` taxon of spec §7. -/
inductive FreudError where
  | InvalidConfiguration (msg : String)
deriving DecidableEq, Repr

/-- Grid dimensions `(nx, ny, nz)` of the cell grid. -/
structure CellDim where
  nx : ℕ
  ny : ℕ
  nz : ℕ
deriving DecidableEq, Repr

/-- `LinkCell::computeDimensions`: per-axis dimension is the C cast
`(unsigned int)(L / cell_width)` (truncation, which is `⌊L / w⌋` for the
nonnegative values arising here, embedded as `Int.toNat ∘ Int.floor`);
in 2D the z dimension is 1; any axis that floored to zero is then clamped
to 1. -/
def computeDimensions (b : Box) (cell_width : ℚ) : CellDim :=
  let L := b.nearestPlaneDistance
  let dx := (⌊L.x / cell_width⌋).toNat
  let dy := (⌊L.y / cell_width⌋).toNat
  let dz := if b.is2D then 1 else (⌊L.z / cell_width⌋).toNat
  { nx := if dx = 0 then 1 else dx
    ny := if dy = 0 then 1 else dy
    nz := if dz = 0 then 1 else dz }

/-- The state a successfully constructed `LinkCell` holds: the box, the
cell width, the (2D-adjusted) grid dimensions and the points.  The bucket
structure `m_cell_list` is recovered by `cellBucket` below. -/
structure LinkCellState where
  box : Box
  width : ℚ
  dims : CellDim
  points : List Vec3
deriving DecidableEq, Repr

/-- The grid dimensions a `LinkCell` ends up with: `computeDimensions`
followed by the constructor's "Only 1 cell deep in 2D" z-override. -/
def adjustedDims (b : Box) (cell_width : ℚ) : CellDim :=
  if b.is2D then { computeDimensions b cell_width with nz := 1 }
  else computeDimensions b cell_width

/-- `LinkCell::LinkCell(box, cell_width, points, n_points)`: computes the
grid dimensions, throws when `cell_width * 2` exceeds the nearest plane
distance along a periodic axis, forces one z cell in 2D, throws when the
grid is empty, and finally runs `computeCellList`, which throws when the
point set is empty. -/
def LinkCell.construct (b : Box) (cell_width : ℚ) (points : List Vec3) :
    Except FreudError LinkCellState :=
  let celldim := adjustedDims b cell_width
  if cell_width * 2 > b.nearestPlaneDistance.x ∨
      cell_width * 2 > b.nearestPlaneDistance.y ∨
      (¬b.is2D ∧ cell_width * 2 > b.nearestPlaneDistance.z) then
    .error (.InvalidConfiguration
      "Cannot generate a cell list where cell_width is larger than half the box.")
  else if celldim.nx * celldim.ny * celldim.nz < 1 then
    .error (.InvalidConfiguration "At least one cell must be present.")
  else if points.length = 0 then
    -- thrown at the top of computeCellList, before any mutation
    .error (.InvalidConfiguration "Cannot generate a cell list of 0 particles.")
  else
    .ok { box := b, width := cell_width, dims := celldim, points := points }

end Freud

namespace Freud

/-- `t - ⌊t⌋`, the fractional part, always in `[0, 1)`. -/
def fracPart (t : ℚ) : ℚ := t - ⌊t⌋

/-- Modelled from the spec: one axis of `LinkCell::getCellCoord`
(`LinkCell.h` is not in the source sample).  The wrapped position is
mapped to its box fraction and multiplied by the number of cells along the
axis, then floored — "maps a point's wrapped position to a flat cell index
via per-axis integer division by cell width" (spec §4.1), where the actual
per-axis cell width is `L / n`. -/
def cellCoord1 (L : ℚ) (n : ℕ) (x : ℚ) : ℕ := (⌊fracPart (x / L) * n⌋).toNat

lemma fracPart_nonneg (t : ℚ) : 0 ≤ fracPart t :=
  sub_nonneg.mpr (Int.floor_le t)

lemma fracPart_lt_one (t : ℚ) : fracPart t < 1 := by
  have := Int.lt_floor_add_one t
  unfold fracPart
  linarith

lemma cellCoord1_lt (L : ℚ) {n : ℕ} (hn : 0 < n) (x : ℚ) : cellCoord1 L n x < n := by
  unfold cellCoord1
  have hn' : (0:ℚ) < n := by exact_mod_cast hn
  have h1 : fracPart (x / L) * n < n := by
    nlinarith [fracPart_lt_one (x / L), fracPart_nonneg (x / L)]
  have h2 : ⌊fracPart (x / L) * (n:ℚ)⌋ < (n:ℤ) := Int.floor_lt.mpr (by exact_mod_cast h1)
  omega

/-- Modelled from the spec: `LinkCell::coordToIndex` (declared in
`LinkCell.h`, not in the source sample).  The Index1D layout flattens cell
coordinates row-major with x fastest: `index = x + nx*(y + ny*z)`; the
sampled `indexToCoord` documents that its triple is "returned in reverse"
to match this layout. -/
def coordToIndex (d : CellDim) (a b c : ℕ) : ℕ := a + d.nx * (b + d.ny * c)

/-- `LinkCell::indexToCoord`: inverse of `coordToIndex` on the grid. -/
def indexToCoord (d : CellDim) (idx : ℕ) : ℕ × ℕ × ℕ :=
  (idx % d.nx, (idx / d.nx) % d.ny, idx / (d.nx * d.ny))

/-- Modelled from the spec: `LinkCell::getCellIndex` on an integer cell
coordinate (query-point cell plus a shell offset): wraps each coordinate
periodically into the grid (indices modulo the grid dimension, spec §4.1)
and flattens. -/
def getCellIndex (d : CellDim) (v : ℤ × ℤ × ℤ) : ℕ :=
  coordToIndex d (v.1 % (d.nx : ℤ)).toNat (v.2.1 % (d.ny : ℤ)).toNat
    (v.2.2 % (d.nz : ℤ)).toNat

/-- The cell coordinate of a point (`LinkCell::getCellCoord`). -/
def cellCoordOf (lc : LinkCellState) (p : Vec3) : ℕ × ℕ × ℕ :=
  (cellCoord1 lc.box.Lx lc.dims.nx p.x,
   cellCoord1 lc.box.Ly lc.dims.ny p.y,
   cellCoord1 lc.box.Lz lc.dims.nz p.z)

/-- The flat cell index of a point (`LinkCell::getCell`). -/
def cellOf (lc : LinkCellState) (p : Vec3) : ℕ :=
  let c := cellCoordOf lc p
  coordToIndex lc.dims c.1 c.2.1 c.2.2

/-- The bucket of a cell: the point indices stored in that cell's linked
list built by `LinkCell::computeCellList`.  The loop inserts indices
`n-1, …, 0` each at the head of its cell's list, so traversal with
`IteratorLinkCell` visits the members of a cell in ascending index
order. -/
def cellBucket (lc : LinkCellState) (cell : ℕ) : List ℕ :=
  (List.range lc.points.length).filter
    (fun j => cellOf lc (lc.points.getD j ⟨0,0,0⟩) = cell)

/-- Signed integer interval `[a, b]` as a list (the C++ loops
`for (v = a; v <= b; v++)`). -/
def rangeInts (a b : ℤ) : List ℤ :=
  (List.range (b + 1 - a).toNat).map (fun (t : ℕ) => a + (t : ℤ))

/-- Modelled from the spec: the offsets produced by `IteratorCellShell`
(declared in `LinkCell.h`, not in the source sample) for one shell:
all relative cell offsets of Chebyshev norm exactly `R` (spec §4.2,
"the set of grid cells at a fixed Chebyshev (max-norm) distance from an
origin cell"), with the third dimension skipped entirely in 2D mode.
Each offset appears exactly once. -/
def shellOffsets (R : ℕ) (is2D : Bool) : List (ℤ × ℤ × ℤ) :=
  (rangeInts (-(R:ℤ)) R).flatMap (fun a =>
    (rangeInts (-(R:ℤ)) R).flatMap (fun b =>
      (if is2D then [(0:ℤ)] else rangeInts (-(R:ℤ)) R).filterMap (fun c =>
        if max (max a.natAbs b.natAbs) c.natAbs = R then some (a, b, c) else none)))

/-- A neighbor bond as produced by the locality queries.  The C++
`NeighborBond(query_point_idx, j, sqrt(r_sq))` stores the distance; here
`r_sq` keeps its square (all comparisons the code makes on distances are
mirrored on squares). -/
structure NeighborBond where
  id : ℕ
  ref_id : ℕ
  r_sq : ℚ
deriving DecidableEq, Repr

/-- The shells the ball-query iterator searches.  The search always scans
the query point's own cell (shell 0); after each step of the offset
iterator it stops as soon as
`(range - m_extra_search_width) * cell_width > r_max`, with
`m_extra_search_width = 1` (Modelled from the spec: the constructor is in
`LinkCell.h`; spec §4.2 identifies the lower bound on the closest
unvisited distance as `(radius − 1) * cell_width`).  For `r_max ≥ 0` and
`w > 0` the shells searched are exactly `0, 1, …, ⌊r_max / w⌋ + 1`. -/
def ballShells (w r_max : ℚ) : List ℕ := List.range ((⌊r_max / w⌋).toNat + 2)

/-- The cells the ball-query iterator scans, in visit order.  The iterator
tracks `m_searched_cells` and scans each cell only the first time an
offset reaches it, which `List.dedup` (keep first occurrence) mirrors. -/
def ballVisitList (lc : LinkCellState) (q : Vec3) (r_max : ℚ) : List ℕ :=
  let cq := cellCoordOf lc q
  ((ballShells lc.width r_max).flatMap (fun R =>
    (shellOffsets R lc.box.is2D).map (fun δ =>
      getCellIndex lc.dims ((cq.1 : ℤ) + δ.1, (cq.2.1 : ℤ) + δ.2.1, (cq.2.2 : ℤ) + δ.2.2)))).dedup

/-- `LinkCellQueryBallIterator::next`, run to the terminator: the list of
all bonds the iterator yields.  Each scanned cell's bucket is filtered by
the self-pair exclusion and the squared-distance window
`r_min_sq ≤ r_sq < r_max_sq`. -/
def ballQuery (lc : LinkCellState) (q : Vec3) (qidx : ℕ) (r_max r_min : ℚ)
    (exclude_ii : Bool) : List NeighborBond :=
  (ballVisitList lc q r_max).flatMap (fun cell =>
    (cellBucket lc cell).filterMap (fun j =>
      if exclude_ii ∧ qidx = j then none
      else
        let rsq := wrappedDistSq lc.box (lc.points.getD j ⟨0,0,0⟩) q
        if rsq < r_max * r_max ∧ rsq ≥ r_min * r_min then
          some ⟨qidx, j, rsq⟩
        else none))

/-- The brute-force reference set of spec §8: every reference index whose
minimum-image wrapped distance satisfies `r_min ≤ d < r_max` (equivalently
`r_min² ≤ r_sq < r_max²`, the source's squared-distance window), paired
with the query index.  Written from the spec's words for comparison with
the iterator. -/
def bruteForceBall (lc : LinkCellState) (q : Vec3) (qidx : ℕ) (r_max r_min : ℚ) :
    List NeighborBond :=
  (List.range lc.points.length).filterMap (fun j =>
    let rsq := wrappedDistSq lc.box (lc.points.getD j ⟨0,0,0⟩) q
    if r_min * r_min ≤ rsq ∧ rsq < r_max * r_max then some ⟨qidx, j, rsq⟩ else none)

/-- Whether an `Except` is in the error state (a thrown C++ exception). -/
def isErr {α : Type} : Except FreudError α → Bool
  | .error _ => true
  | .ok _ => false

/-- A bond as consumed by the density accumulation loop
(`loopOverNeighbors` feeds `NeighborBond`s from either a precomputed
`NeighborList` or a query); the distance field is the plain distance the
C++ bond carries. -/
structure NLBond where
  id : ℕ
  ref_id : ℕ
  distance : ℚ
deriving DecidableEq, Repr

/-- One thread's local accumulator slot in
`util::ThreadStorage` (`m_local_bin_counts` and `m_local_rdf_array`):
parallel arrays of bin counts and accumulated pair values.  The value type
`T` (`double` or `complex<double>`) is embedded as `ℚ`. -/
structure LocalAcc where
  counts : List ℕ
  vals : List ℚ
deriving DecidableEq, Repr

/-- The bin of a bond in `CorrelationFunction::accumulate`:
`binr = distance * dr_inv` followed by the truncating float-to-int
conversion (`_mm_cvtt_ss2si`), which is `⌊distance / dr⌋` for the
nonnegative distances produced by the searches. -/
def binOfDistance (dr distance : ℚ) : ℕ := (⌊distance / dr⌋).toNat

/-- The body of the accumulation callback for a single bond: bins the
distance; if the bin is inside the histogram, increments the thread-local
count and adds `values[bond.ref_id] * query_values[bond.id]` to the
thread-local value bin; otherwise the bond is dropped and the accumulator
untouched. -/
def accumulateBond (nbins : ℕ) (dr : ℚ) (values query_values : List ℚ)
    (acc : LocalAcc) (bond : NLBond) : LocalAcc :=
  let bin := binOfDistance dr bond.distance
  if bin < nbins then
    { counts := acc.counts.set bin (acc.counts.getD bin 0 + 1)
      vals := acc.vals.set bin
        (acc.vals.getD bin 0 + values.getD bond.ref_id 0 * query_values.getD bond.id 0) }
  else acc

/-- `CorrelationFunction::accumulate` restricted to one calling thread:
fold the per-bond callback over the bonds produced by the neighbor
source. -/
def cfAccumulateLocal (nbins : ℕ) (dr : ℚ) (values query_values : List ℚ)
    (acc : LocalAcc) (bonds : List NLBond) : LocalAcc :=
  bonds.foldl (accumulateBond nbins dr values query_values) acc

/-- The mutable state of a `CorrelationFunction<T>` object. -/
structure CFState where
  nbins : ℕ
  dr : ℚ
  r_max : ℚ
  locals : List LocalAcc
  bin_counts : List ℕ
  rdf : List ℚ
  frame_counter : ℕ
  m_reduce : Bool
deriving DecidableEq, Repr

/-- `CorrelationFunction<T>::CorrelationFunction(r_max, dr)`: validates the
arguments in source order and otherwise builds the zeroed state with
`m_nbins = int(floorf(r_max / dr))` and the dirty flag set. -/
def CorrelationFunction.construct (r_max dr : ℚ) : Except FreudError CFState :=
  if dr ≤ 0 then
    .error (.InvalidConfiguration "CorrelationFunction requires dr to be positive.")
  else if r_max ≤ 0 then
    .error (.InvalidConfiguration "CorrelationFunction requires r_max to be positive.")
  else if dr > r_max then
    .error (.InvalidConfiguration
      "CorrelationFunction requires dr must be less than or equal to r_max.")
  else
    let nbins := (⌊r_max / dr⌋).toNat
    .ok { nbins := nbins, dr := dr, r_max := r_max, locals := []
          bin_counts := List.replicate nbins 0
          rdf := List.replicate nbins 0
          frame_counter := 0, m_reduce := true }

/-- The count of bin `i` after merging all thread-local arrays. -/
def mergedCount (locals : List LocalAcc) (i : ℕ) : ℕ :=
  (locals.map (fun l => l.counts.getD i 0)).sum

/-- The summed value of bin `i` after merging all thread-local arrays. -/
def mergedVal (locals : List LocalAcc) (i : ℕ) : ℚ :=
  (locals.map (fun l => l.vals.getD i 0)).sum

/-- `CorrelationFunction<T>::reduceCorrelationFunction`: zeroes the shared
arrays, sums every thread-local array into them, and divides each value
bin by its count only when the count is nonzero. -/
def reduceCF (s : CFState) : List ℕ × List ℚ :=
  ((List.range s.nbins).map (fun i => mergedCount s.locals i),
   (List.range s.nbins).map (fun i =>
     let c := mergedCount s.locals i
     let v := mergedVal s.locals i
     if c ≠ 0 then v / (c : ℚ) else v))

/-- `CorrelationFunction<T>::getRDF`: re-reduces only when the dirty flag
`m_reduce` is set, then clears the flag and returns the shared array.
`RDF::reduceAndReturn` has the same flag discipline. -/
def getRDF (s : CFState) : List ℚ × CFState :=
  if s.m_reduce then
    let r := reduceCF s
    (r.2, { s with bin_counts := r.1, rdf := r.2, m_reduce := false })
  else
    (s.rdf, { s with m_reduce := false })

/-- `CorrelationFunction<T>::accumulate` at the object level: the calling
thread folds the bonds into a fresh local slot of the thread storage, the
frame counter advances and the dirty flag is set. -/
def cfAccumulate (s : CFState) (values query_values : List ℚ)
    (bonds : List NLBond) : CFState :=
  { s with
    locals := cfAccumulateLocal s.nbins s.dr values query_values
        ⟨List.replicate s.nbins 0, List.replicate s.nbins 0⟩ bonds :: s.locals
    frame_counter := s.frame_counter + 1
    m_reduce := true }

/-- `CorrelationFunction<T>::reset`: clears the thread-local storage and
the frame counter and marks the result dirty. -/
def cfReset (s : CFState) : CFState :=
  { s with locals := [], frame_counter := 0, m_reduce := true }

/-- Query arguments (spec §6): mode is handled by `querySingle`; the
fields the sampled code reads are embedded. -/
structure QueryArgs where
  r_max : ℚ
  r_min : ℚ
  num_neighbors : ℕ
  exclude_ii : Bool
deriving DecidableEq, Repr

/-- Modelled from the spec: `NeighborQuery::validateQueryArgs`
(`NeighborQuery.h` is not in the source sample), run by `querySingle`
before any iterator is built.  Spec §7 lists `r_min > r_max` among the
`InvalidConfiguration` errors raised at the start of accumulation. -/
def validateQueryArgs (qa : QueryArgs) : Except FreudError Unit :=
  if qa.r_min > qa.r_max then
    .error (.InvalidConfiguration "r_min must not exceed r_max.")
  else .ok ()

/-- The entry of an accumulation pass over a correlation function: the
query arguments are validated before the parallel loop mutates any
thread-local bin; on a validation error the state is returned untouched. -/
def cfAccumulateChecked (s : CFState) (qa : QueryArgs) (values query_values : List ℚ)
    (bonds : List NLBond) : Option FreudError × CFState :=
  match validateQueryArgs qa with
  | .error e => (some e, s)
  | .ok _ => (none, cfAccumulate s values query_values bonds)

/-- States of a `CorrelationFunction` reachable through its public
interface: freshly constructed, or obtained by `accumulate`, `reset` or
`getRDF`. -/
inductive CFReachable : CFState → Prop where
  | construct {r_max dr : ℚ} {s : CFState}
      (h : CorrelationFunction.construct r_max dr = .ok s) : CFReachable s
  | accumulate {s : CFState} (values query_values : List ℚ) (bonds : List NLBond)
      (h : CFReachable s) : CFReachable (cfAccumulate s values query_values bonds)
  | reset {s : CFState} (h : CFReachable s) : CFReachable (cfReset s)
  | getRDF {s : CFState} (h : CFReachable s) : CFReachable (getRDF s).2


lemma getRDF_snd_m_reduce (s : CFState) : (getRDF s).2.m_reduce = false := by
  unfold getRDF
  by_cases h : s.m_reduce <;> simp [h]

lemma getRDF_snd_rdf (s : CFState) : (getRDF s).2.rdf = (getRDF s).1 := by
  unfold getRDF
  by_cases h : s.m_reduce <;> simp [h]

/-- C5: reduction is idempotent: a second call to the reduced-result getter
(`getRDF` / `reduceAndReturn`) with no intervening `accumulate` or `reset`
returns the identical output and leaves the state unchanged, because the
first call cleared the dirty flag `m_reduce`, so the second call performs
no re-reduction. -/
theorem getRDF_idempotent (s : CFState) :
    getRDF (getRDF s).2 = ((getRDF s).1, (getRDF s).2) := by
  by_cases h : s.m_reduce = true <;> simp [getRDF, h]

/-- C8: `computeDimensions` returns, on every axis, the floored ratio of
nearest-plane distance to cell width clamped to a minimum of 1 (the z axis
is forced to 1 in 2D); the total number of cells is always at least 1, so
degenerate geometry is a silent fallback, never an error. -/
theorem computeDimensions_clamped (b : Box) (w : ℚ) :
    (computeDimensions b w).nx = max 1 (⌊b.nearestPlaneDistance.x / w⌋).toNat ∧
    (computeDimensions b w).ny = max 1 (⌊b.nearestPlaneDistance.y / w⌋).toNat ∧
    (computeDimensions b w).nz =
      (if b.is2D then 1 else max 1 (⌊b.nearestPlaneDistance.z / w⌋).toNat) ∧
    1 ≤ (computeDimensions b w).nx * (computeDimensions b w).ny *
        (computeDimensions b w).nz := by
  have hmax : ∀ d : ℕ, (if d = 0 then 1 else d) = max 1 d := by
    intro d
    split <;> omega
  have hpos : ∀ d : ℕ, 0 < (if d = 0 then 1 else d) := by
    intro d
    split <;> omega
  unfold computeDimensions
  by_cases h2 : b.is2D
  · simp only [h2]
    exact ⟨hmax _, hmax _, by simp, Nat.mul_pos (Nat.mul_pos (hpos _) (hpos _)) (hpos _)⟩
  · simp only [h2, if_false, Bool.false_eq_true]
    exact ⟨hmax _, hmax _, hmax _, Nat.mul_pos (Nat.mul_pos (hpos _) (hpos _)) (hpos _)⟩


lemma computeDimensions_pos (b : Box) (w : ℚ) :
    0 < (computeDimensions b w).nx ∧ 0 < (computeDimensions b w).ny ∧
    0 < (computeDimensions b w).nz := by
  have hpos : ∀ d : ℕ, 0 < (if d = 0 then 1 else d) := by
    intro d
    split <;> omega
  unfold computeDimensions
  by_cases h2 : b.is2D
  · simp only [h2]
    exact ⟨hpos _, hpos _, by simp⟩
  · simp only [h2, if_false, Bool.false_eq_true]
    exact ⟨hpos _, hpos _, hpos _⟩

lemma adjustedDims_pos (b : Box) (w : ℚ) :
    0 < (adjustedDims b w).nx ∧ 0 < (adjustedDims b w).ny ∧ 0 < (adjustedDims b w).nz := by
  obtain ⟨hx, hy, hz⟩ := computeDimensions_pos b w
  unfold adjustedDims
  by_cases h2 : b.is2D <;> simp only [h2, if_true, if_false, Bool.false_eq_true]
  · exact ⟨hx, hy, Nat.one_pos⟩
  · exact ⟨hx, hy, hz⟩

lemma adjustedDims_prod_pos (b : Box) (w : ℚ) :
    ¬((adjustedDims b w).nx * (adjustedDims b w).ny * (adjustedDims b w).nz < 1) := by
  obtain ⟨hx, hy, hz⟩ := adjustedDims_pos b w
  have := Nat.mul_pos (Nat.mul_pos hx hy) hz
  omega

lemma linkCell_construct_error_iff (b : Box) (w : ℚ) (pts : List Vec3) :
    isErr (LinkCell.construct b w pts) = true ↔
      ((w * 2 > b.nearestPlaneDistance.x ∨ w * 2 > b.nearestPlaneDistance.y ∨
        (¬b.is2D ∧ w * 2 > b.nearestPlaneDistance.z)) ∨ pts = []) := by
  unfold LinkCell.construct
  simp only []
  split_ifs with h1 h2 h3
  · simp only [isErr, true_iff]
    exact Or.inl h1
  · exact absurd h2 (adjustedDims_prod_pos b w)
  · simp only [isErr, true_iff]
    exact Or.inr (List.length_eq_zero.mp h3)
  · simp only [isErr, Bool.false_eq_true, false_iff]
    rintro (h | h)
    · exact h1 h
    · exact h3 (by simp [h])

/-- C6: every `InvalidConfiguration` error — non-positive bin width,
non-positive `r_max`, bin width exceeding `r_max` (all three checked by the
`CorrelationFunction` constructor), cell width exceeding half the box's
minimum thickness and an empty point set (checked by the `LinkCell`
constructor before any cell-list mutation), and `r_min > r_max` (checked
by query-argument validation at the start of accumulation) — is raised
synchronously by exactly its stated condition, and an accumulation pass
that errors returns the correlation-function state unmodified. -/
theorem invalidConfiguration_sync_errors :
    (∀ r_max dr : ℚ, isErr (CorrelationFunction.construct r_max dr) = true ↔
        (dr ≤ 0 ∨ r_max ≤ 0 ∨ dr > r_max)) ∧
    (∀ (b : Box) (w : ℚ) (pts : List Vec3),
        isErr (LinkCell.construct b w pts) = true ↔
          ((w * 2 > b.nearestPlaneDistance.x ∨ w * 2 > b.nearestPlaneDistance.y ∨
            (¬b.is2D ∧ w * 2 > b.nearestPlaneDistance.z)) ∨ pts = [])) ∧
    (∀ qa : QueryArgs, isErr (validateQueryArgs qa) = true ↔ qa.r_min > qa.r_max) ∧
    (∀ (s : CFState) (qa : QueryArgs) (values query_values : List ℚ)
        (bonds : List NLBond),
        (cfAccumulateChecked s qa values query_values bonds).1 = none ∨
        (cfAccumulateChecked s qa values query_values bonds).2 = s) := by
  refine ⟨?_, linkCell_construct_error_iff, ?_, ?_⟩
  · intro r_max dr
    unfold CorrelationFunction.construct
    split_ifs with h1 h2 h3
    · simp only [isErr, true_iff]
      exact Or.inl h1
    · simp only [isErr, true_iff]
      exact Or.inr (Or.inl h2)
    · simp only [isErr, true_iff]
      exact Or.inr (Or.inr h3)
    · simp only [isErr, Bool.false_eq_true, false_iff]
      rintro (h | h | h) <;> [exact h1 h; exact h2 h; exact h3 h]
  · intro qa
    unfold validateQueryArgs
    split_ifs with h
    · simp only [isErr, true_iff]
      exact h
    · simp only [isErr, Bool.false_eq_true, false_iff]
      exact h
  · intro s qa values query_values bonds
    unfold cfAccumulateChecked validateQueryArgs
    split_ifs with h
    · exact Or.inr rfl
    · exact Or.inl rfl

/-- C3 counterexample: for a 3D box with nearest-plane distances
`(2, 2, 2)` and `cell_width = 1` — cell width exactly half the minimum box
thickness, so `cell_width * 2 == nearest_plane_distance` — construction
succeeds, refuting the claim's headline reading that this boundary input
must raise `InvalidConfiguration`. -/
theorem linkCell_halfbox_equality_counterexample :
    isErr (LinkCell.construct ⟨2, 2, 2, false⟩ 1 [⟨0, 0, 0⟩]) = false := by
  have h := linkCell_construct_error_iff ⟨2, 2, 2, false⟩ 1 [⟨0, 0, 0⟩]
  simp only [Box.nearestPlaneDistance] at h
  rw [Bool.eq_false_iff]
  intro hc
  rcases h.mp hc with (h1 | h1 | h1) | h1
  · norm_num at h1
  · norm_num at h1
  · norm_num at h1
  · simp at h1

/-- C3 (amended): given a nonempty point set, `LinkCell` construction
raises `InvalidConfiguration` exactly when `cell_width * 2` strictly
exceeds the box's nearest-plane distance in some periodic dimension; in
particular `cell_width * 2 == nearest_plane_distance` passes. -/
theorem linkCell_width_error_iff_strict (b : Box) (w : ℚ) (pts : List Vec3)
    (hpts : pts ≠ []) :
    isErr (LinkCell.construct b w pts) = true ↔
      (w * 2 > b.nearestPlaneDistance.x ∨ w * 2 > b.nearestPlaneDistance.y ∨
        (¬b.is2D ∧ w * 2 > b.nearestPlaneDistance.z)) := by
  rw [linkCell_construct_error_iff]
  constructor
  · rintro (h | h)
    · exact h
    · exact absurd h hpts
  · exact fun h => Or.inl h

/-- Witness for the amended C3 theorem at a concrete undersized box. -/
theorem linkCell_width_error_iff_strict_witness :
    (([⟨0, 0, 0⟩] : List Vec3) ≠ []) ∧
    (isErr (LinkCell.construct ⟨1, 4, 4, false⟩ 1 [⟨0, 0, 0⟩]) = true ↔
      ((1:ℚ) * 2 > (Box.mk 1 4 4 false).nearestPlaneDistance.x ∨
       (1:ℚ) * 2 > (Box.mk 1 4 4 false).nearestPlaneDistance.y ∨
       (¬(Box.mk 1 4 4 false).is2D ∧
        (1:ℚ) * 2 > (Box.mk 1 4 4 false).nearestPlaneDistance.z))) :=
  ⟨by decide, linkCell_width_error_iff_strict _ _ _ (by decide)⟩

lemma accumulateBond_counts_length (n : ℕ) (dr : ℚ) (v qv : List ℚ) (acc : LocalAcc)
    (b : NLBond) : (accumulateBond n dr v qv acc b).counts.length = acc.counts.length := by
  simp only [accumulateBond]
  split <;> simp

lemma accumulateBond_vals_length (n : ℕ) (dr : ℚ) (v qv : List ℚ) (acc : LocalAcc)
    (b : NLBond) : (accumulateBond n dr v qv acc b).vals.length = acc.vals.length := by
  simp only [accumulateBond]
  split <;> simp

lemma accumulateBond_counts_getD (n : ℕ) (dr : ℚ) (v qv : List ℚ) (acc : LocalAcc)
    (b : NLBond) (i : ℕ) (hi : i < n) (hlen : acc.counts.length = n) :
    (accumulateBond n dr v qv acc b).counts.getD i 0 =
      acc.counts.getD i 0 + (if binOfDistance dr b.distance = i then 1 else 0) := by
  simp only [accumulateBond]
  split
  · by_cases hbi : binOfDistance dr b.distance = i
    · subst hbi
      have hl : binOfDistance dr b.distance < acc.counts.length := by omega
      simp [List.getD_eq_getElem?_getD, List.getElem?_set_self hl]
    · simp [List.getD_eq_getElem?_getD, List.getElem?_set_ne hbi, hbi]
  · rename_i hbin
    have hbi : ¬(binOfDistance dr b.distance = i) := by omega
    simp [hbi]

lemma accumulateBond_vals_getD (n : ℕ) (dr : ℚ) (v qv : List ℚ) (acc : LocalAcc)
    (b : NLBond) (i : ℕ) (hi : i < n) (hlen : acc.vals.length = n) :
    (accumulateBond n dr v qv acc b).vals.getD i 0 =
      acc.vals.getD i 0 + (if binOfDistance dr b.distance = i then
        v.getD b.ref_id 0 * qv.getD b.id 0 else 0) := by
  simp only [accumulateBond]
  split
  · by_cases hbi : binOfDistance dr b.distance = i
    · subst hbi
      have hl : binOfDistance dr b.distance < acc.vals.length := by omega
      simp [List.getD_eq_getElem?_getD, List.getElem?_set_self hl]
    · simp [List.getD_eq_getElem?_getD, List.getElem?_set_ne hbi, hbi]
  · rename_i hbin
    have hbi : ¬(binOfDistance dr b.distance = i) := by omega
    simp [hbi]

lemma cfAccumulateLocal_counts_length (n : ℕ) (dr : ℚ) (v qv : List ℚ)
    (bonds : List NLBond) (acc : LocalAcc) :
    (cfAccumulateLocal n dr v qv acc bonds).counts.length = acc.counts.length := by
  induction bonds generalizing acc with
  | nil => rfl
  | cons b bs ih =>
      rw [show cfAccumulateLocal n dr v qv acc (b :: bs) =
        cfAccumulateLocal n dr v qv (accumulateBond n dr v qv acc b) bs from rfl]
      rw [ih, accumulateBond_counts_length]

lemma cfAccumulateLocal_vals_length (n : ℕ) (dr : ℚ) (v qv : List ℚ)
    (bonds : List NLBond) (acc : LocalAcc) :
    (cfAccumulateLocal n dr v qv acc bonds).vals.length = acc.vals.length := by
  induction bonds generalizing acc with
  | nil => rfl
  | cons b bs ih =>
      rw [show cfAccumulateLocal n dr v qv acc (b :: bs) =
        cfAccumulateLocal n dr v qv (accumulateBond n dr v qv acc b) bs from rfl]
      rw [ih, accumulateBond_vals_length]

lemma cfAccumulateLocal_counts_getD (n : ℕ) (dr : ℚ) (v qv : List ℚ)
    (bonds : List NLBond) (acc : LocalAcc) (hlen : acc.counts.length = n)
    (i : ℕ) (hi : i < n) :
    (cfAccumulateLocal n dr v qv acc bonds).counts.getD i 0 =
      acc.counts.getD i 0 +
        (bonds.filter (fun b => binOfDistance dr b.distance = i)).length := by
  induction bonds generalizing acc with
  | nil => simp [cfAccumulateLocal]
  | cons b bs ih =>
      rw [show cfAccumulateLocal n dr v qv acc (b :: bs) =
        cfAccumulateLocal n dr v qv (accumulateBond n dr v qv acc b) bs from rfl]
      rw [ih _ (by rw [accumulateBond_counts_length]; exact hlen)]
      rw [accumulateBond_counts_getD n dr v qv acc b i hi hlen]
      by_cases hb : binOfDistance dr b.distance = i <;>
        simp [List.filter_cons, hb] <;> omega

lemma cfAccumulateLocal_vals_getD (n : ℕ) (dr : ℚ) (v qv : List ℚ)
    (bonds : List NLBond) (acc : LocalAcc) (hlen : acc.vals.length = n)
    (i : ℕ) (hi : i < n) :
    (cfAccumulateLocal n dr v qv acc bonds).vals.getD i 0 =
      acc.vals.getD i 0 +
        ((bonds.filter (fun b => binOfDistance dr b.distance = i)).map
          (fun b => v.getD b.ref_id 0 * qv.getD b.id 0)).sum := by
  induction bonds generalizing acc with
  | nil => simp [cfAccumulateLocal]
  | cons b bs ih =>
      rw [show cfAccumulateLocal n dr v qv acc (b :: bs) =
        cfAccumulateLocal n dr v qv (accumulateBond n dr v qv acc b) bs from rfl]
      rw [ih _ (by rw [accumulateBond_vals_length]; exact hlen)]
      rw [accumulateBond_vals_getD n dr v qv acc b i hi hlen]
      by_cases hb : binOfDistance dr b.distance = i <;>
        simp [List.filter_cons, hb] <;> ring

/-- C4: in `CorrelationFunction::accumulate` every bond contributes
`values[bond.ref_id] * query_values[bond.id]` (and one count) to the
thread-local bin `⌊bond.distance / dr⌋`; a bond whose bin is `≥ nbins` is
silently dropped; the thread-local arrays keep their length `nbins`, so no
bin access is ever out of range and the accumulation is total for all
finite nonnegative distances. -/
theorem cfAccumulate_bins_spec (nbins : ℕ) (dr : ℚ) (values query_values : List ℚ)
    (bonds : List NLBond) (acc : LocalAcc)
    (hc : acc.counts.length = nbins) (hv : acc.vals.length = nbins)
    (hdr : 0 < dr) (hd : ∀ b ∈ bonds, 0 ≤ b.distance) (i : ℕ) (hi : i < nbins) :
    (cfAccumulateLocal nbins dr values query_values acc bonds).counts.length = nbins ∧
    (cfAccumulateLocal nbins dr values query_values acc bonds).vals.length = nbins ∧
    (cfAccumulateLocal nbins dr values query_values acc bonds).counts.getD i 0 =
      acc.counts.getD i 0 +
        (bonds.filter (fun b => ⌊b.distance / dr⌋ = (i : ℤ))).length ∧
    (cfAccumulateLocal nbins dr values query_values acc bonds).vals.getD i 0 =
      acc.vals.getD i 0 +
        ((bonds.filter (fun b => ⌊b.distance / dr⌋ = (i : ℤ))).map
          (fun b => values.getD b.ref_id 0 * query_values.getD b.id 0)).sum := by
  have hfil : bonds.filter (fun b => binOfDistance dr b.distance = i) =
      bonds.filter (fun b => ⌊b.distance / dr⌋ = (i : ℤ)) := by
    apply List.filter_congr
    intro b hb
    have hfl : 0 ≤ ⌊b.distance / dr⌋ :=
      Int.floor_nonneg.mpr (div_nonneg (hd b hb) hdr.le)
    apply decide_eq_decide.mpr
    unfold binOfDistance
    omega
  refine ⟨?_, ?_, ?_, ?_⟩
  · rw [cfAccumulateLocal_counts_length]
    exact hc
  · rw [cfAccumulateLocal_vals_length]
    exact hv
  · rw [cfAccumulateLocal_counts_getD nbins dr values query_values bonds acc hc i hi, hfil]
  · rw [cfAccumulateLocal_vals_getD nbins dr values query_values bonds acc hv i hi, hfil]

/-- Witness for C4 at a concrete histogram: two bins of width 1, one bond
at distance 3/2 (bin 1), one bond at distance 5 (bin 5, dropped). -/
theorem cfAccumulate_bins_spec_witness :
    (([0, 0] : List ℕ).length = 2 ∧ ([0, 0] : List ℚ).length = 2 ∧ (0:ℚ) < 1 ∧
      (∀ b ∈ [(⟨0, 0, 3/2⟩ : NLBond), ⟨0, 0, 5⟩], 0 ≤ b.distance) ∧ 1 < 2) ∧
    ((cfAccumulateLocal 2 1 [2] [3] ⟨[0, 0], [0, 0]⟩
        [⟨0, 0, 3/2⟩, ⟨0, 0, 5⟩]).counts.length = 2 ∧
     (cfAccumulateLocal 2 1 [2] [3] ⟨[0, 0], [0, 0]⟩
        [⟨0, 0, 3/2⟩, ⟨0, 0, 5⟩]).vals.length = 2 ∧
     (cfAccumulateLocal 2 1 [2] [3] ⟨[0, 0], [0, 0]⟩
        [⟨0, 0, 3/2⟩, ⟨0, 0, 5⟩]).counts.getD 1 0 =
       ([0, 0] : List ℕ).getD 1 0 +
         (([⟨0, 0, 3/2⟩, ⟨0, 0, 5⟩] : List NLBond).filter
           (fun b => ⌊b.distance / 1⌋ = (1 : ℤ))).length ∧
     (cfAccumulateLocal 2 1 [2] [3] ⟨[0, 0], [0, 0]⟩
        [⟨0, 0, 3/2⟩, ⟨0, 0, 5⟩]).vals.getD 1 0 =
       ([0, 0] : List ℚ).getD 1 0 +
         ((([⟨0, 0, 3/2⟩, ⟨0, 0, 5⟩] : List NLBond).filter
           (fun b => ⌊b.distance / 1⌋ = (1 : ℤ))).map
           (fun b => ([2] : List ℚ).getD b.ref_id 0 * ([3] : List ℚ).getD b.id 0)).sum) := by
  have hd : ∀ b ∈ [(⟨0, 0, 3/2⟩ : NLBond), ⟨0, 0, 5⟩], 0 ≤ b.distance := by
    intro b hb
    simp only [List.mem_cons, List.not_mem_nil, or_false] at hb
    rcases hb with h | h
    · subst h
      norm_num
    · subst h
      norm_num
  exact ⟨⟨rfl, rfl, by norm_num, hd, by norm_num⟩,
    cfAccumulate_bins_spec 2 1 [2] [3] [⟨0, 0, 3/2⟩, ⟨0, 0, 5⟩] ⟨[0, 0], [0, 0]⟩
      rfl rfl (by norm_num) hd 1 (by norm_num)⟩

/-- The invariant linking each thread-local count array to its value
array: a bin that was never counted still holds the default value `T()`
(zero), because `accumulate` touches both arrays together. -/
def countValInv (l : LocalAcc) : Prop :=
  ∀ i, l.counts.getD i 0 = 0 → l.vals.getD i 0 = 0

lemma accumulateBond_countValInv (n : ℕ) (dr : ℚ) (v qv : List ℚ) (acc : LocalAcc)
    (b : NLBond) (hc : acc.counts.length = n) (hv : acc.vals.length = n)
    (h : countValInv acc) : countValInv (accumulateBond n dr v qv acc b) := by
  intro i hcount
  rcases Nat.lt_or_ge i n with hi | hi
  · rw [accumulateBond_counts_getD n dr v qv acc b i hi hc] at hcount
    rw [accumulateBond_vals_getD n dr v qv acc b i hi hv]
    by_cases hbi : binOfDistance dr b.distance = i
    · simp [hbi] at hcount
    · simp only [hbi, if_false, add_zero] at hcount ⊢
      exact h i hcount
  · have hlen : (accumulateBond n dr v qv acc b).vals.length ≤ i := by
      rw [accumulateBond_vals_length, hv]
      exact hi
    rw [List.getD_eq_getElem?_getD, List.getElem?_eq_none hlen]
    rfl

lemma cfAccumulateLocal_countValInv (n : ℕ) (dr : ℚ) (v qv : List ℚ)
    (bonds : List NLBond) (acc : LocalAcc) (hc : acc.counts.length = n)
    (hv : acc.vals.length = n) (h : countValInv acc) :
    countValInv (cfAccumulateLocal n dr v qv acc bonds) := by
  induction bonds generalizing acc with
  | nil => exact h
  | cons b bs ih =>
      rw [show cfAccumulateLocal n dr v qv acc (b :: bs) =
        cfAccumulateLocal n dr v qv (accumulateBond n dr v qv acc b) bs from rfl]
      exact ih _ (by rw [accumulateBond_counts_length]; exact hc)
        (by rw [accumulateBond_vals_length]; exact hv)
        (accumulateBond_countValInv n dr v qv acc b hc hv h)

lemma zeroLocal_countValInv (n : ℕ) :
    countValInv ⟨List.replicate n 0, List.replicate n (0:ℚ)⟩ := by
  intro i _
  rcases Nat.lt_or_ge i n with hi | hi
  · simp [List.getD_eq_getElem?_getD, List.getElem?_replicate, hi]
  · rw [List.getD_eq_getElem?_getD, List.getElem?_eq_none (by simpa using hi)]
    rfl

/-- Every thread-local slot of a reachable state has arrays of length
`nbins` and satisfies the count/value invariant. -/
def CFInv (s : CFState) : Prop :=
  ∀ l ∈ s.locals, l.counts.length = s.nbins ∧ l.vals.length = s.nbins ∧ countValInv l

lemma getRDF_snd_locals (s : CFState) : (getRDF s).2.locals = s.locals := by
  unfold getRDF
  by_cases h : s.m_reduce <;> simp [h]

lemma getRDF_snd_nbins (s : CFState) : (getRDF s).2.nbins = s.nbins := by
  unfold getRDF
  by_cases h : s.m_reduce <;> simp [h]

lemma cfReachable_inv {s : CFState} (h : CFReachable s) : CFInv s := by
  induction h with
  | construct hok =>
      rename_i r_max dr s
      unfold CorrelationFunction.construct at hok
      split_ifs at hok
      injection hok with hok
      subst hok
      intro l hl
      exact absurd hl (List.not_mem_nil l)
  | accumulate values query_values bonds _ ih =>
      rename_i s
      intro l hl
      rcases List.mem_cons.mp hl with hl | hl
      · subst hl
        refine ⟨?_, ?_, ?_⟩
        · rw [cfAccumulateLocal_counts_length]
          simp [cfAccumulate]
        · rw [cfAccumulateLocal_vals_length]
          simp [cfAccumulate]
        · exact cfAccumulateLocal_countValInv _ _ _ _ _ _ (by simp) (by simp)
            (zeroLocal_countValInv _)
      · simpa [cfAccumulate] using ih l hl
  | reset _ ih =>
      intro l hl
      exact absurd hl (List.not_mem_nil l)
  | getRDF _ ih =>
      rename_i s
      intro l hl
      rw [getRDF_snd_locals] at hl
      rw [getRDF_snd_nbins]
      exact ih l hl

lemma mergedVal_eq_zero_of_mergedCount_eq_zero {s : CFState} (hinv : CFInv s)
    (i : ℕ) (hc : mergedCount s.locals i = 0) : mergedVal s.locals i = 0 := by
  unfold mergedVal
  apply List.sum_eq_zero
  intro x hx
  rcases List.mem_map.mp hx with ⟨l, hl, hlx⟩
  subst hlx
  have hcl : l.counts.getD i 0 = 0 := by
    unfold mergedCount at hc
    have := List.sum_eq_zero_iff.mp hc
    exact this _ (List.mem_map.mpr ⟨l, hl, rfl⟩)
  exact (hinv l hl).2.2 i hcl

/-- C10: after `reduceCorrelationFunction` runs on any reachable
accumulator state, a bin whose merged count is zero holds the default
value `T()` (zero) rather than the result of a division, and a bin with a
nonzero count holds the summed value divided by the count — the division
is performed only when the count is nonzero, so the reduction never
divides by zero. -/
theorem reduceCF_no_div_by_zero (s : CFState) (h : CFReachable s) (i : ℕ)
    (hi : i < s.nbins) :
    (reduceCF s).2.getD i 0 =
      if mergedCount s.locals i = 0 then 0
      else mergedVal s.locals i / (mergedCount s.locals i : ℚ) := by
  have hmap : (reduceCF s).2.getD i 0 =
      (let c := mergedCount s.locals i
       let v := mergedVal s.locals i
       if c ≠ 0 then v / (c : ℚ) else v) := by
    unfold reduceCF
    rw [List.getD_eq_getElem?_getD, List.getElem?_map, List.getElem?_range hi]
    rfl
  rw [hmap]
  by_cases hc : mergedCount s.locals i = 0
  · simp only [hc, ne_eq, not_true_eq_false, if_false, if_true]
    exact mergedVal_eq_zero_of_mergedCount_eq_zero (cfReachable_inv h) i hc
  · simp [hc]

/-- The state `CorrelationFunction<T>(1, 1)` constructs: one bin, no
accumulated data. -/
def cfFresh : CFState :=
  { nbins := 1, dr := 1, r_max := 1, locals := [], bin_counts := [0], rdf := [0],
    frame_counter := 0, m_reduce := true }

/-- Witness for C10 on the freshly constructed state of
`CorrelationFunction(1, 1)` (one bin, no accumulated data). -/
theorem reduceCF_no_div_by_zero_witness :
    CFReachable cfFresh ∧ 0 < cfFresh.nbins ∧
    (reduceCF cfFresh).2.getD 0 0 =
      (if mergedCount cfFresh.locals 0 = 0 then 0
       else mergedVal cfFresh.locals 0 / (mergedCount cfFresh.locals 0 : ℚ)) := by
  have hok : CorrelationFunction.construct 1 1 = .ok cfFresh := by
    norm_num [CorrelationFunction.construct, cfFresh]
  have hreach : CFReachable cfFresh := CFReachable.construct hok
  exact ⟨hreach, Nat.one_pos, reduceCF_no_div_by_zero cfFresh hreach 0 Nat.one_pos⟩

/-- The per-axis loop bounds of `LinkCell::computeCellNeighbors`:
`start = (dim < 3) ? coord : coord - 1` and
`end = (dim < 2) ? coord : coord + 1`, as the inclusive integer range the
C++ `for` loop walks. -/
def axisRange (n : ℕ) (i : ℤ) : List ℤ :=
  rangeInts (if n < 3 then i else i - 1) (if n < 2 then i else i + 1)

/-- `LinkCell::computeCellNeighbors(cur_cell)`: walks the neighbor window
around the cell's coordinates (axes of extent < 3 collapsed via
`axisRange`, the z window collapsed to the cell's own plane in 2D), wraps
each visited coordinate back into the grid with
`(celldim + neigh) % celldim`, flattens, and sorts the resulting list of
cell indices. -/
def computeCellNeighbors (d : CellDim) (is2D : Bool) (cur_cell : ℕ) : List ℕ :=
  let l := indexToCoord d cur_cell
  let i : ℤ := l.1
  let j : ℤ := l.2.1
  let k : ℤ := l.2.2
  let krange := if is2D then rangeInts k k else axisRange d.nz k
  ((krange.flatMap (fun neighk =>
    (axisRange d.ny j).flatMap (fun neighj =>
      (axisRange d.nx i).map (fun neighi =>
        coordToIndex d (((d.nx : ℤ) + neighi) % (d.nx : ℤ)).toNat
          (((d.ny : ℤ) + neighj) % (d.ny : ℤ)).toNat
          (((d.nz : ℤ) + neighk) % (d.nz : ℤ)).toNat)))).mergeSort
    (fun a b => decide (a ≤ b)))

/-- Written from the spec's words (§4.1, claim C7): `c` is a cell at
Chebyshev distance ≤ 1 from `cur` under periodic index wrap modulo the
grid dimension, axis by axis. -/
def isWrapNeighbor (d : CellDim) (cur c : ℕ) : Prop :=
  c < d.nx * d.ny * d.nz ∧
  (∃ dx : ℤ, dx.natAbs ≤ 1 ∧
    (((indexToCoord d c).1 : ℕ) : ℤ) =
      ((((indexToCoord d cur).1 : ℕ) : ℤ) + dx) % (d.nx : ℤ)) ∧
  (∃ dy : ℤ, dy.natAbs ≤ 1 ∧
    (((indexToCoord d c).2.1 : ℕ) : ℤ) =
      ((((indexToCoord d cur).2.1 : ℕ) : ℤ) + dy) % (d.ny : ℤ)) ∧
  (∃ dz : ℤ, dz.natAbs ≤ 1 ∧
    (((indexToCoord d c).2.2 : ℕ) : ℤ) =
      ((((indexToCoord d cur).2.2 : ℕ) : ℤ) + dz) % (d.nz : ℤ))

lemma mem_rangeInts {a b t : ℤ} : t ∈ rangeInts a b ↔ a ≤ t ∧ t ≤ b := by
  simp only [rangeInts, List.mem_map, List.mem_range]
  constructor
  · rintro ⟨u, hu, rfl⟩
    omega
  · intro h
    exact ⟨(t - a).toNat, by omega, by omega⟩

lemma nodup_rangeInts (a b : ℤ) : (rangeInts a b).Nodup := by
  refine List.Nodup.map ?_ (List.nodup_range _)
  intro u v h
  have h' : a + (u : ℤ) = a + (v : ℤ) := h
  omega

lemma mem_axisRange {n : ℕ} {i t : ℤ} (hn : 0 < n) :
    t ∈ axisRange n i →  i - 1 ≤ t ∧ t ≤ i + 1 := by
  unfold axisRange
  intro h
  rcases mem_rangeInts.mp h with ⟨h1, h2⟩
  constructor
  · rcases Nat.lt_or_ge n 3 with h3 | h3
    · rw [if_pos h3] at h1
      omega
    · rw [if_neg (by omega)] at h1
      omega
  · rcases Nat.lt_or_ge n 2 with h3 | h3
    · rw [if_pos h3] at h2
      omega
    · rw [if_neg (by omega)] at h2
      omega

lemma axisRange_width {n : ℕ} (hn : 0 < n) (i : ℤ) :
    (if n < 2 then i else i + 1) - (if n < 3 then i else i - 1) < n := by
  rcases Nat.lt_or_ge n 2 with h2 | h2
  · rcases Nat.lt_or_ge n 3 with h3 | h3 <;> simp [h2, h3] <;> omega
  · rcases Nat.lt_or_ge n 3 with h3 | h3 <;> simp [show ¬(n < 2) from by omega, h3] <;> omega

lemma add_self_emod (n t : ℤ) : (n + t) % n = t % n := by
  have h : n + t = t + n * 1 := by ring
  rw [h, Int.add_mul_emod_self_left]

/-- The wrapped per-axis coordinates one axis of the neighbor loops
visits: the loop range mapped through `(celldim + neigh) % celldim`. -/
def wrappedAxis (n : ℕ) (i : ℕ) : List ℕ :=
  (axisRange n (i : ℤ)).map (fun t => (((n : ℤ) + t) % (n : ℤ)).toNat)

lemma mem_wrappedAxis {n i : ℕ} (hn : 0 < n) (hi : i < n) (a : ℕ) :
    a ∈ wrappedAxis n i ↔
      ∃ dx : ℤ, dx.natAbs ≤ 1 ∧ (a : ℤ) = ((i : ℤ) + dx) % (n : ℤ) := by
  have hnz : (n : ℤ) ≠ 0 := by omega
  constructor
  · intro h
    rcases List.mem_map.mp h with ⟨t, ht, hval⟩
    rcases mem_axisRange hn ht with ⟨hb1, hb2⟩
    refine ⟨t - i, by omega, ?_⟩
    have h1 : ((n : ℤ) + t) % (n : ℤ) = t % (n : ℤ) := add_self_emod _ _
    have h2 : ((i : ℤ) + (t - i)) = t := by ring
    have h3 : 0 ≤ t % (n : ℤ) := Int.emod_nonneg _ hnz
    rw [h2]
    omega
  · rintro ⟨dx, hdx, ha⟩
    rcases Nat.lt_or_ge n 3 with h3 | h3
    · -- n = 1 or n = 2: the collapsed window still reaches every wrap value
      interval_cases n
      · -- n = 1
        refine List.mem_map.mpr ⟨(i : ℤ), ?_, ?_⟩
        · unfold axisRange
          exact mem_rangeInts.mpr (by norm_num)
        · omega
      · -- n = 2
        by_cases hdx0 : dx = 0
        · refine List.mem_map.mpr ⟨(i : ℤ), ?_, ?_⟩
          · unfold axisRange
            exact mem_rangeInts.mpr (by norm_num)
          · subst hdx0
            omega
        · refine List.mem_map.mpr ⟨(i : ℤ) + 1, ?_, ?_⟩
          · unfold axisRange
            exact mem_rangeInts.mpr (by norm_num)
          · omega
    · -- n ≥ 3: the full window [i-1, i+1]
      refine List.mem_map.mpr ⟨(i : ℤ) + dx, ?_, ?_⟩
      · unfold axisRange
        rw [if_neg (by omega), if_neg (by omega)]
        exact mem_rangeInts.mpr (by omega)
      · have h1 : ((n : ℤ) + ((i : ℤ) + dx)) % (n : ℤ) = ((i : ℤ) + dx) % (n : ℤ) :=
          add_self_emod _ _
        have h2 : 0 ≤ ((i : ℤ) + dx) % (n : ℤ) := Int.emod_nonneg _ hnz
        omega

lemma mem_wrappedAxis_lt {n i : ℕ} (hn : 0 < n) {a : ℕ} (h : a ∈ wrappedAxis n i) :
    a < n := by
  rcases List.mem_map.mp h with ⟨t, _, hval⟩
  have h1 : ((n : ℤ) + t) % (n : ℤ) < n := Int.emod_lt_of_pos _ (by omega)
  have h2 : 0 ≤ ((n : ℤ) + t) % (n : ℤ) := Int.emod_nonneg _ (by omega)
  omega

lemma nodup_wrappedAxis {n : ℕ} (hn : 0 < n) (i : ℕ) : (wrappedAxis n i).Nodup := by
  unfold wrappedAxis axisRange
  refine List.Nodup.map_on ?_ (nodup_rangeInts _ _)
  intro x hx y hy hf
  rcases mem_rangeInts.mp hx with ⟨hx1, hx2⟩
  rcases mem_rangeInts.mp hy with ⟨hy1, hy2⟩
  have hw := axisRange_width hn (i : ℤ)
  have hxy : x % (n : ℤ) = y % (n : ℤ) := by
    have e1 : ((n : ℤ) + x) % (n : ℤ) = x % (n : ℤ) := add_self_emod _ _
    have e2 : ((n : ℤ) + y) % (n : ℤ) = y % (n : ℤ) := add_self_emod _ _
    have p1 : 0 ≤ ((n : ℤ) + x) % (n : ℤ) := Int.emod_nonneg _ (by omega)
    have p2 : 0 ≤ ((n : ℤ) + y) % (n : ℤ) := Int.emod_nonneg _ (by omega)
    omega
  rcases Int.dvd_of_emod_eq_zero (Int.emod_eq_emod_iff_emod_sub_eq_zero.mp hxy) with ⟨k, hk⟩
  rcases lt_trichotomy k 0 with hk0 | hk0 | hk0
  · have hle : (n : ℤ) * k ≤ (n : ℤ) * (-1) :=
      mul_le_mul_of_nonneg_left (by omega) (by omega)
    rw [mul_neg_one] at hle
    omega
  · subst hk0
    omega
  · have hle : (n : ℤ) * 1 ≤ (n : ℤ) * k :=
      mul_le_mul_of_nonneg_left (by omega) (by omega)
    rw [mul_one] at hle
    omega

lemma coordToIndex_lt (d : CellDim) {a b c : ℕ} (ha : a < d.nx) (hb : b < d.ny)
    (hc : c < d.nz) : coordToIndex d a b c < d.nx * d.ny * d.nz := by
  unfold coordToIndex
  calc a + d.nx * (b + d.ny * c) < d.nx + d.nx * (b + d.ny * c) := by omega
    _ = d.nx * (1 + (b + d.ny * c)) := by ring
    _ ≤ d.nx * (d.ny + d.ny * c) := Nat.mul_le_mul_left _ (by omega)
    _ = d.nx * d.ny * (1 + c) := by ring
    _ ≤ d.nx * d.ny * d.nz := Nat.mul_le_mul_left _ (by omega)

lemma indexToCoord_coordToIndex (d : CellDim) {a b c : ℕ} (ha : a < d.nx)
    (hb : b < d.ny) (hc : c < d.nz) :
    indexToCoord d (coordToIndex d a b c) = (a, b, c) := by
  have hx : 0 < d.nx := by omega
  have hy : 0 < d.ny := by omega
  unfold indexToCoord coordToIndex
  simp only [Prod.mk.injEq]
  have hmod : (a + d.nx * (b + d.ny * c)) % d.nx = a := by
    rw [Nat.add_mul_mod_self_left, Nat.mod_eq_of_lt ha]
  have hdiv : (a + d.nx * (b + d.ny * c)) / d.nx = b + d.ny * c := by
    rw [Nat.add_mul_div_left _ _ hx, Nat.div_eq_of_lt ha]
    omega
  refine ⟨hmod, ?_, ?_⟩
  · rw [hdiv, Nat.add_mul_mod_self_left, Nat.mod_eq_of_lt hb]
  · have hsplit : a + d.nx * (b + d.ny * c) = (a + d.nx * b) + (d.nx * d.ny) * c := by
      ring
    have hsmall : a + d.nx * b < d.nx * d.ny :=
      calc a + d.nx * b < d.nx + d.nx * b := by omega
        _ = d.nx * (1 + b) := by ring
        _ ≤ d.nx * d.ny := Nat.mul_le_mul_left _ (by omega)
    rw [hsplit, Nat.add_mul_div_left _ _ (Nat.mul_pos hx hy), Nat.div_eq_of_lt hsmall]
    omega

lemma coordToIndex_indexToCoord (d : CellDim) {idx : ℕ} (hx : 0 < d.nx)
    (hy : 0 < d.ny) (h : idx < d.nx * d.ny * d.nz) :
    coordToIndex d (indexToCoord d idx).1 (indexToCoord d idx).2.1
      (indexToCoord d idx).2.2 = idx ∧
    (indexToCoord d idx).1 < d.nx ∧ (indexToCoord d idx).2.1 < d.ny ∧
    (indexToCoord d idx).2.2 < d.nz := by
  unfold indexToCoord coordToIndex
  refine ⟨?_, Nat.mod_lt _ hx, Nat.mod_lt _ hy, ?_⟩
  · have e1 : (idx / d.nx) % d.ny + d.ny * (idx / (d.nx * d.ny)) = idx / d.nx := by
      rw [← Nat.div_div_eq_div_mul]
      exact Nat.mod_add_div _ _
    rw [e1, Nat.mod_add_div]
  · exact Nat.div_lt_of_lt_mul h

lemma coordToIndex_inj (d : CellDim) {a b c a' b' c' : ℕ} (ha : a < d.nx)
    (hb : b < d.ny) (hc : c < d.nz) (ha' : a' < d.nx) (hb' : b' < d.ny)
    (hc' : c' < d.nz) (h : coordToIndex d a b c = coordToIndex d a' b' c') :
    a = a' ∧ b = b' ∧ c = c' := by
  have h1 := indexToCoord_coordToIndex d ha hb hc
  have h2 := indexToCoord_coordToIndex d ha' hb' hc'
  rw [h, h2] at h1
  simp only [Prod.mk.injEq] at h1
  exact ⟨h1.1.symm, h1.2.1.symm, h1.2.2.symm⟩

lemma computeCellNeighbors_eq_wrapped (d : CellDim) (is2D : Bool) (cur : ℕ)
    (h2 : is2D = false ∨ d.nz = 1) :
    computeCellNeighbors d is2D cur =
      ((wrappedAxis d.nz (indexToCoord d cur).2.2).flatMap (fun cz =>
        (wrappedAxis d.ny (indexToCoord d cur).2.1).flatMap (fun cy =>
          (wrappedAxis d.nx (indexToCoord d cur).1).map (fun cx =>
            coordToIndex d cx cy cz)))).mergeSort (fun a b => decide (a ≤ b)) := by
  unfold computeCellNeighbors
  simp only []
  have hk : (if is2D then
        rangeInts ((indexToCoord d cur).2.2 : ℤ) ((indexToCoord d cur).2.2 : ℤ)
      else axisRange d.nz ((indexToCoord d cur).2.2 : ℤ)) =
      axisRange d.nz ((indexToCoord d cur).2.2 : ℤ) := by
    by_cases hb : is2D
    · rw [if_pos hb]
      rcases h2 with h | h
      · rw [hb] at h
        exact absurd h (by simp)
      · unfold axisRange
        rw [h, if_pos (by omega), if_pos (by omega)]
    · rw [if_neg hb]
  rw [hk]
  simp only [wrappedAxis, List.flatMap_map, List.map_map, Function.comp_def]


/-- C7: for every cell of the grid (axes of any extent, including 1 and
2), `computeCellNeighbors` returns, without duplicates, exactly the set of
cells at Chebyshev distance at most 1 from the given cell under periodic
index wrap modulo the grid dimension. -/
theorem computeCellNeighbors_chebyshev (d : CellDim) (is2D : Bool) (cur : ℕ)
    (hnx : 0 < d.nx) (hny : 0 < d.ny) (hnz : 0 < d.nz)
    (hcur : cur < d.nx * d.ny * d.nz) (h2 : is2D = false ∨ d.nz = 1) :
    (computeCellNeighbors d is2D cur).Nodup ∧
    ∀ c, (c ∈ computeCellNeighbors d is2D cur ↔ isWrapNeighbor d cur c) := by
  obtain ⟨hrt, hia, hib, hic⟩ := coordToIndex_indexToCoord d hnx hny hcur
  rw [computeCellNeighbors_eq_wrapped d is2D cur h2]
  constructor
  · rw [List.Perm.nodup_iff (List.mergeSort_perm _ _)]
    apply List.nodup_flatMap.mpr
    refine ⟨?_, ?_⟩
    · intro cz hcz
      apply List.nodup_flatMap.mpr
      refine ⟨?_, ?_⟩
      · intro cy hcy
        refine List.Nodup.map_on ?_ (nodup_wrappedAxis hnx _)
        intro u hu v hv hf
        exact (coordToIndex_inj d (mem_wrappedAxis_lt hnx hu)
          (mem_wrappedAxis_lt hny hcy) (mem_wrappedAxis_lt hnz hcz)
          (mem_wrappedAxis_lt hnx hv) (mem_wrappedAxis_lt hny hcy)
          (mem_wrappedAxis_lt hnz hcz) hf).1
      · refine List.Pairwise.imp_of_mem ?_ (nodup_wrappedAxis hny _)
        intro cy cy' hcy hcy' hne x hm1 hm2
        rcases List.mem_map.mp hm1 with ⟨u, hu, rfl⟩
        rcases List.mem_map.mp hm2 with ⟨v, hv, he⟩
        exact hne (coordToIndex_inj d (mem_wrappedAxis_lt hnx hu)
          (mem_wrappedAxis_lt hny hcy) (mem_wrappedAxis_lt hnz hcz)
          (mem_wrappedAxis_lt hnx hv) (mem_wrappedAxis_lt hny hcy')
          (mem_wrappedAxis_lt hnz hcz) he.symm).2.1
    · refine List.Pairwise.imp_of_mem ?_ (nodup_wrappedAxis hnz _)
      intro cz cz' hcz hcz' hne x hm1 hm2
      rcases List.mem_flatMap.mp hm1 with ⟨cy, hcy, hm1'⟩
      rcases List.mem_flatMap.mp hm2 with ⟨cy', hcy', hm2'⟩
      rcases List.mem_map.mp hm1' with ⟨u, hu, rfl⟩
      rcases List.mem_map.mp hm2' with ⟨v, hv, he⟩
      exact hne (coordToIndex_inj d (mem_wrappedAxis_lt hnx hu)
        (mem_wrappedAxis_lt hny hcy) (mem_wrappedAxis_lt hnz hcz)
        (mem_wrappedAxis_lt hnx hv) (mem_wrappedAxis_lt hny hcy')
        (mem_wrappedAxis_lt hnz hcz') he.symm).2.2
  · intro c
    rw [List.mem_mergeSort]
    unfold isWrapNeighbor
    constructor
    · intro hc
      rcases List.mem_flatMap.mp hc with ⟨cz, hcz, hc1⟩
      rcases List.mem_flatMap.mp hc1 with ⟨cy, hcy, hc2⟩
      rcases List.mem_map.mp hc2 with ⟨cx, hcx, rfl⟩
      have bx := mem_wrappedAxis_lt hnx hcx
      have bb := mem_wrappedAxis_lt hny hcy
      have bz := mem_wrappedAxis_lt hnz hcz
      have hdec := indexToCoord_coordToIndex d bx bb bz
      refine ⟨coordToIndex_lt d bx bb bz, ?_, ?_, ?_⟩
      · rw [hdec]
        exact (mem_wrappedAxis hnx hia cx).mp hcx
      · rw [hdec]
        exact (mem_wrappedAxis hny hib cy).mp hcy
      · rw [hdec]
        exact (mem_wrappedAxis hnz hic cz).mp hcz
    · rintro ⟨hlt, hex, hey, hez⟩
      obtain ⟨hrtc, hca, hcb, hcc⟩ := coordToIndex_indexToCoord d hnx hny hlt
      refine List.mem_flatMap.mpr ⟨(indexToCoord d c).2.2,
        (mem_wrappedAxis hnz hic _).mpr hez,
        List.mem_flatMap.mpr ⟨(indexToCoord d c).2.1,
          (mem_wrappedAxis hny hib _).mpr hey,
          List.mem_map.mpr ⟨(indexToCoord d c).1,
            (mem_wrappedAxis hnx hia _).mpr hex, hrtc⟩⟩⟩

/-- Witness for C7 on a 2×3×1 grid (one axis of extent 1, one of
extent 2). -/
theorem computeCellNeighbors_chebyshev_witness :
    ((0:ℕ) < 2 ∧ (0:ℕ) < 3 ∧ (0:ℕ) < 1 ∧ (0:ℕ) < 2 * 3 * 1 ∧
      (false = false ∨ (1:ℕ) = 1)) ∧
    ((computeCellNeighbors ⟨2, 3, 1⟩ false 0).Nodup ∧
     ∀ c, (c ∈ computeCellNeighbors ⟨2, 3, 1⟩ false 0 ↔
        isWrapNeighbor ⟨2, 3, 1⟩ 0 c)) :=
  ⟨⟨by decide, by decide, by decide, by decide, Or.inl rfl⟩,
   computeCellNeighbors_chebyshev ⟨2, 3, 1⟩ false 0 (by decide) (by decide)
     (by decide) (by decide) (Or.inl rfl)⟩

/-- The periodic index distance between two cell coordinates modulo `n`:
the smaller of the forward and backward index differences around the
ring. -/
def wdist (n i j : ℕ) : ℕ :=
  let t := (j + n - i) % n
  min t (n - t)

lemma wdist_le (n i j : ℕ) (hn : 0 < n) (hi : i < n) (hj : j < n) (m : ℤ) :
    (wdist n i j : ℤ) ≤ ((j : ℤ) - (i : ℤ) + m * (n : ℤ)).natAbs := by
  unfold wdist
  simp only []
  have hq := Nat.div_add_mod (j + n - i) n
  set t := (j + n - i) % n with ht
  set q := (j + n - i) / n with hqd
  have htn : t < n := Nat.mod_lt _ hn
  have hm1 : min t (n - t) ≤ t := Nat.min_le_left _ _
  have hm2 : min t (n - t) ≤ n - t := Nat.min_le_right _ _
  have hqz : (n : ℤ) * (q : ℤ) + (t : ℤ) = ((j + n - i : ℕ) : ℤ) := by
    exact_mod_cast hq
  have hS : ((j + n - i : ℕ) : ℤ) = (j : ℤ) + (n : ℤ) - (i : ℤ) := by omega
  rw [hS] at hqz
  have key : (j : ℤ) - i + m * n = (t : ℤ) + (m + (q : ℤ) - 1) * (n : ℤ) := by
    linear_combination -hqz
  rw [key]
  rcases lt_trichotomy (m + (q : ℤ) - 1) 0 with hs | hs | hs
  · have hle : (n : ℤ) * (m + (q : ℤ) - 1) ≤ (n : ℤ) * (-1) :=
      mul_le_mul_of_nonneg_left (by omega) (by omega)
    rw [mul_neg_one] at hle
    have hcomm : (m + (q : ℤ) - 1) * (n : ℤ) = (n : ℤ) * (m + (q : ℤ) - 1) := by ring
    rw [hcomm]
    omega
  · rw [hs]
    omega
  · have hle : (n : ℤ) * 1 ≤ (n : ℤ) * (m + (q : ℤ) - 1) :=
      mul_le_mul_of_nonneg_left (by omega) (by omega)
    rw [mul_one] at hle
    have hcomm : (m + (q : ℤ) - 1) * (n : ℤ) = (n : ℤ) * (m + (q : ℤ) - 1) := by ring
    rw [hcomm]
    omega

lemma wdist_rep (n i j : ℕ) (hn : 0 < n) (hi : i < n) (hj : j < n) :
    ∃ δ : ℤ, δ.natAbs = wdist n i j ∧ ((i : ℤ) + δ) % (n : ℤ) = (j : ℤ) := by
  unfold wdist
  simp only []
  have hq := Nat.div_add_mod (j + n - i) n
  set t := (j + n - i) % n with ht
  set q := (j + n - i) / n with hqd
  have htn : t < n := Nat.mod_lt _ hn
  have hqz : (n : ℤ) * (q : ℤ) + (t : ℤ) = ((j + n - i : ℕ) : ℤ) := by
    exact_mod_cast hq
  have hS : ((j + n - i : ℕ) : ℤ) = (j : ℤ) + (n : ℤ) - (i : ℤ) := by omega
  rw [hS] at hqz
  have hjmod : (j : ℤ) % (n : ℤ) = (j : ℤ) := Int.emod_eq_of_lt (by omega) (by omega)
  by_cases hc : t ≤ n - t
  · refine ⟨(t : ℤ), by simp [Nat.min_eq_left hc], ?_⟩
    have he : (i : ℤ) + (t : ℤ) = (j : ℤ) + (n : ℤ) * (1 - (q : ℤ)) := by
      linear_combination hqz
    rw [he, Int.add_mul_emod_self_left, hjmod]
  · refine ⟨-((n : ℤ) - (t : ℤ)), ?_, ?_⟩
    · have habs : ((n : ℤ) - (t : ℤ)).natAbs = n - t := by omega
      rw [Int.natAbs_neg, habs, Nat.min_eq_right (by omega)]
    · have he : (i : ℤ) + -((n : ℤ) - (t : ℤ)) = (j : ℤ) + (n : ℤ) * (-(q : ℤ)) := by
        linear_combination hqz
      rw [he, Int.add_mul_emod_self_left, hjmod]

lemma cellCoord1_bounds (L : ℚ) (n : ℕ) (x : ℚ) :
    ((cellCoord1 L n x : ℕ) : ℚ) ≤ fracPart (x / L) * n ∧
    fracPart (x / L) * n < ((cellCoord1 L n x : ℕ) : ℚ) + 1 := by
  have h0 : 0 ≤ ⌊fracPart (x / L) * (n : ℚ)⌋ :=
    Int.floor_nonneg.mpr (mul_nonneg (fracPart_nonneg _) (by positivity))
  have hcast : ((cellCoord1 L n x : ℕ) : ℚ) = ((⌊fracPart (x / L) * (n : ℚ)⌋ : ℤ) : ℚ) := by
    unfold cellCoord1
    exact_mod_cast Int.toNat_of_nonneg h0
  rw [hcast]
  exact ⟨Int.floor_le _, Int.lt_floor_add_one _⟩

lemma axis_cell_bound (L w : ℚ) (n : ℕ) (hw : 0 < w) (hn : 0 < n)
    (hnw : (n : ℚ) * w ≤ L) (pa qa : ℚ) :
    ((wdist n (cellCoord1 L n qa) (cellCoord1 L n pa) : ℕ) - 1 : ℚ) * w
      ≤ |wrap1 L (pa - qa)| := by
  have hn' : (0 : ℚ) < n := by exact_mod_cast hn
  have hL : 0 < L := lt_of_lt_of_le (by positivity) hnw
  have hL0 : L ≠ 0 := ne_of_gt hL
  set i := cellCoord1 L n qa with hidef
  set j := cellCoord1 L n pa with hjdef
  set D := wdist n i j with hDdef
  rcases Nat.eq_zero_or_pos D with hD0 | hDpos
  · rw [hD0]
    have := abs_nonneg (wrap1 L (pa - qa))
    push_cast
    nlinarith
  set α := fracPart (pa / L) with hα
  set β := fracPart (qa / L) with hβ
  obtain ⟨hj1, hj2⟩ := cellCoord1_bounds L n pa
  obtain ⟨hi1, hi2⟩ := cellCoord1_bounds L n qa
  rw [← hjdef] at hj1 hj2
  rw [← hidef] at hi1 hi2
  rw [← hα] at hj1 hj2
  rw [← hβ] at hi1 hi2
  have hpa : pa = L * ((⌊pa / L⌋ : ℚ) + α) := by
    rw [hα]
    unfold fracPart
    field_simp
    ring
  have hqa : qa = L * ((⌊qa / L⌋ : ℚ) + β) := by
    rw [hβ]
    unfold fracPart
    field_simp
    ring
  set M : ℤ := ⌊pa / L⌋ - ⌊qa / L⌋ - ⌊(pa - qa) / L + 1/2⌋ with hM
  have hwrap : wrap1 L (pa - qa) = L * ((α - β) + (M : ℚ)) := by
    unfold wrap1
    rw [hM]
    push_cast
    linear_combination hpa - hqa
  have hiLt : i < n := cellCoord1_lt L hn qa
  have hjLt : j < n := cellCoord1_lt L hn pa
  have hZ := wdist_le n i j hn hiLt hjLt M
  have hQ : (D : ℚ) ≤ |(j : ℚ) - (i : ℚ) + (M : ℚ) * n| := by
    have h1 : ((((j : ℤ) - (i : ℤ) + M * n).natAbs : ℤ) : ℚ) =
        |(j : ℚ) - (i : ℚ) + (M : ℚ) * n| := by
      rw [Int.cast_natAbs]
      push_cast
      rfl
    have h2 : ((D : ℤ) : ℚ) ≤ ((((j : ℤ) - (i : ℤ) + M * n).natAbs : ℤ) : ℚ) := by
      exact_mod_cast hZ
    rw [h1] at h2
    exact_mod_cast h2
  have hsw : (D : ℚ) - 1 < |α * n - β * n + (M : ℚ) * n| := by
    have htri := abs_sub_abs_le_abs_sub ((j : ℚ) - (i : ℚ) + (M : ℚ) * n)
      (α * n - β * n + (M : ℚ) * n)
    have hsmall : |(j : ℚ) - (i : ℚ) + (M : ℚ) * n - (α * n - β * n + (M : ℚ) * n)| < 1 := by
      rw [abs_lt]
      constructor <;> nlinarith
    linarith
  have hwabs : |wrap1 L (pa - qa)| = L * |α - β + (M : ℚ)| := by
    rw [hwrap, abs_mul, abs_of_pos hL]
  have hfac : |α - β + (M : ℚ)| * n = |α * n - β * n + (M : ℚ) * n| := by
    rw [show α * n - β * n + (M : ℚ) * n = (α - β + (M : ℚ)) * n by ring,
      abs_mul, abs_of_pos hn']
  have t1 : ((n : ℚ) * w) * |α - β + (M : ℚ)| ≤ L * |α - β + (M : ℚ)| :=
    mul_le_mul_of_nonneg_right hnw (abs_nonneg _)
  have t2 : w * ((D : ℚ) - 1) < w * (|α - β + (M : ℚ)| * n) :=
    mul_lt_mul_of_pos_left (by rw [hfac]; exact hsw) hw
  rw [hwabs]
  nlinarith

lemma linkCell_construct_ok {b : Box} {w : ℚ} {pts : List Vec3} {lc : LinkCellState}
    (h : LinkCell.construct b w pts = .ok lc) :
    lc = ⟨b, w, adjustedDims b w, pts⟩ ∧ w * 2 ≤ b.Lx ∧ w * 2 ≤ b.Ly ∧
      (b.is2D = false → w * 2 ≤ b.Lz) ∧ pts ≠ [] := by
  unfold LinkCell.construct at h
  simp only [Box.nearestPlaneDistance] at h
  split_ifs at h with h1 h2 h3
  injection h with h
  push_neg at h1
  refine ⟨h.symm, by linarith [h1.1], by linarith [h1.2.1], ?_, ?_⟩
  · intro hb2
    have := h1.2.2 (by simp [hb2])
    linarith
  · intro hne
    exact h3 (by simp [hne])

lemma dims_axis_core (L w : ℚ) (hw : 0 < w) (hL : w * 2 ≤ L) :
    2 ≤ (⌊L / w⌋).toNat ∧ (((⌊L / w⌋).toNat : ℕ) : ℚ) * w ≤ L := by
  have h2 : (2 : ℚ) ≤ L / w := by
    rw [le_div_iff hw]
    linarith
  have hf : (2 : ℤ) ≤ ⌊L / w⌋ := Int.le_floor.mpr (by exact_mod_cast h2)
  have hfle : ((⌊L / w⌋ : ℤ) : ℚ) ≤ L / w := Int.floor_le _
  refine ⟨by omega, ?_⟩
  have hcast : (((⌊L / w⌋).toNat : ℕ) : ℚ) = ((⌊L / w⌋ : ℤ) : ℚ) := by
    exact_mod_cast Int.toNat_of_nonneg (by omega)
  rw [hcast]
  rw [← le_div_iff hw]
  exact hfle

lemma adjustedDims_x (b : Box) (w : ℚ) (hw : 0 < w) (hx : w * 2 ≤ b.Lx) :
    0 < (adjustedDims b w).nx ∧ ((adjustedDims b w).nx : ℚ) * w ≤ b.Lx := by
  obtain ⟨h2, hle⟩ := dims_axis_core b.Lx w hw hx
  have hnx : (adjustedDims b w).nx = (⌊b.Lx / w⌋).toNat := by
    unfold adjustedDims computeDimensions
    simp only [Box.nearestPlaneDistance]
    by_cases hb : b.is2D <;> simp only [hb, if_true, if_false, Bool.false_eq_true] <;>
      split <;> omega
  rw [hnx]
  exact ⟨by omega, hle⟩

lemma adjustedDims_y (b : Box) (w : ℚ) (hw : 0 < w) (hy : w * 2 ≤ b.Ly) :
    0 < (adjustedDims b w).ny ∧ ((adjustedDims b w).ny : ℚ) * w ≤ b.Ly := by
  obtain ⟨h2, hle⟩ := dims_axis_core b.Ly w hw hy
  have hny : (adjustedDims b w).ny = (⌊b.Ly / w⌋).toNat := by
    unfold adjustedDims computeDimensions
    simp only [Box.nearestPlaneDistance]
    by_cases hb : b.is2D <;> simp only [hb, if_true, if_false, Bool.false_eq_true] <;>
      split <;> omega
  rw [hny]
  exact ⟨by omega, hle⟩

lemma adjustedDims_z3 (b : Box) (w : ℚ) (hw : 0 < w) (hb : b.is2D = false)
    (hz : w * 2 ≤ b.Lz) :
    0 < (adjustedDims b w).nz ∧ ((adjustedDims b w).nz : ℚ) * w ≤ b.Lz := by
  obtain ⟨h2, hle⟩ := dims_axis_core b.Lz w hw hz
  have hnz : (adjustedDims b w).nz = (⌊b.Lz / w⌋).toNat := by
    unfold adjustedDims computeDimensions
    simp only [Box.nearestPlaneDistance, hb, if_false, Bool.false_eq_true]
    split <;> omega
  rw [hnz]
  exact ⟨by omega, hle⟩

lemma adjustedDims_z2 (b : Box) (w : ℚ) (hb : b.is2D = true) :
    (adjustedDims b w).nz = 1 := by
  unfold adjustedDims
  rw [if_pos hb]

lemma mem_ballShells {w r_max : ℚ} {R : ℕ} :
    R ∈ ballShells w r_max ↔ R < (⌊r_max / w⌋).toNat + 2 := by
  simp [ballShells, List.mem_range]

lemma mem_shellOffsets {R : ℕ} {is2D : Bool} {δ : ℤ × ℤ × ℤ} :
    δ ∈ shellOffsets R is2D ↔
      (max (max δ.1.natAbs δ.2.1.natAbs) δ.2.2.natAbs = R ∧
        (is2D = true → δ.2.2 = 0)) := by
  unfold shellOffsets
  constructor
  · intro h
    rcases List.mem_flatMap.mp h with ⟨a, ha, h⟩
    rcases List.mem_flatMap.mp h with ⟨bb, hb, h⟩
    rcases List.mem_filterMap.mp h with ⟨c, hc, hfc⟩
    by_cases hcond : max (max a.natAbs bb.natAbs) c.natAbs = R
    · rw [if_pos hcond] at hfc
      injection hfc with hδ
      subst hδ
      refine ⟨hcond, ?_⟩
      intro h2D
      rw [if_pos h2D] at hc
      simpa using hc
    · rw [if_neg hcond] at hfc
      cases hfc
  · rintro ⟨hmax, h2⟩
    obtain ⟨d1, d2, d3⟩ := δ
    simp only at hmax h2
    refine List.mem_flatMap.mpr ⟨d1, mem_rangeInts.mpr ⟨by omega, by omega⟩,
      List.mem_flatMap.mpr ⟨d2, mem_rangeInts.mpr ⟨by omega, by omega⟩,
        List.mem_filterMap.mpr ⟨d3, ?_, ?_⟩⟩⟩
    · by_cases hb : is2D
      · rw [if_pos hb, h2 hb]
        simp
      · rw [if_neg hb]
        exact mem_rangeInts.mpr ⟨by omega, by omega⟩
    · rw [if_pos hmax]

lemma mem_cellBucket {lc : LinkCellState} {cell j : ℕ} :
    j ∈ cellBucket lc cell ↔
      j < lc.points.length ∧ cellOf lc (lc.points.getD j ⟨0, 0, 0⟩) = cell := by
  simp [cellBucket, List.mem_filter, List.mem_range]

lemma mem_ballVisitList {lc : LinkCellState} {q : Vec3} {r_max : ℚ} {c : ℕ} :
    c ∈ ballVisitList lc q r_max ↔
      ∃ R ∈ ballShells lc.width r_max, ∃ δ ∈ shellOffsets R lc.box.is2D,
        getCellIndex lc.dims (((cellCoordOf lc q).1 : ℤ) + δ.1,
          ((cellCoordOf lc q).2.1 : ℤ) + δ.2.1,
          ((cellCoordOf lc q).2.2 : ℤ) + δ.2.2) = c := by
  unfold ballVisitList
  rw [List.mem_dedup]
  simp only [List.mem_flatMap, List.mem_map]

lemma abs_lt_of_sq_lt_sq {x r : ℚ} (h : x * x < r * r) (hr : 0 ≤ r) : |x| < r := by
  by_contra hcon
  push_neg at hcon
  have h2 : r * r ≤ |x| * |x| := mul_le_mul hcon hcon hr (abs_nonneg x)
  rw [abs_mul_abs_self] at h2
  linarith

lemma wdist_shell_bound {D : ℕ} {w r_max : ℚ} (hw : 0 < w) (hrmax : 0 ≤ r_max)
    (h : ((D : ℚ) - 1) * w < r_max) : D < (⌊r_max / w⌋).toNat + 2 := by
  have h1 : ((D : ℚ) - 1) < r_max / w := (lt_div_iff hw).mpr h
  have h2 : ((D : ℤ) - 1) ≤ ⌊r_max / w⌋ := by
    apply Int.le_floor.mpr
    push_cast
    linarith
  have h3 : 0 ≤ ⌊r_max / w⌋ := Int.floor_nonneg.mpr (by positivity)
  omega

lemma cellCoord1_one (L x : ℚ) : cellCoord1 L 1 x = 0 := by
  unfold cellCoord1
  have h1 : fracPart (x / L) * (1 : ℕ) = fracPart (x / L) := by
    push_cast
    ring
  rw [h1]
  have h2 : ⌊fracPart (x / L)⌋ = 0 :=
    Int.floor_eq_zero_iff.mpr ⟨fracPart_nonneg _, fracPart_lt_one _⟩
  rw [h2]
  rfl

lemma wrappedDistSq_expand (b : Box) (p q : Vec3) :
    wrappedDistSq b p q =
      wrap1 b.Lx (p.x - q.x) * wrap1 b.Lx (p.x - q.x) +
      wrap1 b.Ly (p.y - q.y) * wrap1 b.Ly (p.y - q.y) +
      (if b.is2D then p.z - q.z else wrap1 b.Lz (p.z - q.z)) *
        (if b.is2D then p.z - q.z else wrap1 b.Lz (p.z - q.z)) := by
  unfold wrappedDistSq Box.wrap Vec3.sub Vec3.normSq
  rfl

lemma ball_cell_visited {b : Box} {w : ℚ} {pts : List Vec3}
    (hok : ∃ lc0, LinkCell.construct b w pts = .ok lc0) (hw : 0 < w) (q : Vec3)
    {r_max : ℚ} (hrmax : 0 ≤ r_max)
    (hq2d : b.is2D = true → q.z = 0)
    {p : Vec3} (hp2d : b.is2D = true → p.z = 0)
    (hlt : wrappedDistSq b p q < r_max * r_max) :
    cellOf ⟨b, w, adjustedDims b w, pts⟩ p ∈
      ballVisitList ⟨b, w, adjustedDims b w, pts⟩ q r_max := by
  obtain ⟨lc0, hlc⟩ := hok
  obtain ⟨hlceq, hxL, hyL, hzL, hne⟩ := linkCell_construct_ok hlc
  set d := adjustedDims b w with hd
  obtain ⟨hxpos, hxle⟩ := adjustedDims_x b w hw hxL
  obtain ⟨hypos, hyle⟩ := adjustedDims_y b w hw hyL
  -- per-axis squared components bound the total
  have hexp := wrappedDistSq_expand b p q
  have hXlt : wrap1 b.Lx (p.x - q.x) * wrap1 b.Lx (p.x - q.x) < r_max * r_max := by
    nlinarith [mul_self_nonneg (wrap1 b.Ly (p.y - q.y)),
      mul_self_nonneg (if b.is2D then p.z - q.z else wrap1 b.Lz (p.z - q.z))]
  have hYlt : wrap1 b.Ly (p.y - q.y) * wrap1 b.Ly (p.y - q.y) < r_max * r_max := by
    nlinarith [mul_self_nonneg (wrap1 b.Lx (p.x - q.x)),
      mul_self_nonneg (if b.is2D then p.z - q.z else wrap1 b.Lz (p.z - q.z))]
  have hXabs : |wrap1 b.Lx (p.x - q.x)| < r_max := abs_lt_of_sq_lt_sq hXlt hrmax
  have hYabs : |wrap1 b.Ly (p.y - q.y)| < r_max := abs_lt_of_sq_lt_sq hYlt hrmax
  -- cell coordinates
  set ix := cellCoord1 b.Lx d.nx q.x with hix
  set iy := cellCoord1 b.Ly d.ny q.y with hiy
  set iz := cellCoord1 b.Lz d.nz q.z with hiz
  set jx := cellCoord1 b.Lx d.nx p.x with hjx
  set jy := cellCoord1 b.Ly d.ny p.y with hjy
  set jz := cellCoord1 b.Lz d.nz p.z with hjz
  set Dx := wdist d.nx ix jx with hDx
  set Dy := wdist d.ny iy jy with hDy
  set Dz := wdist d.nz iz jz with hDz
  have hDxb : ((Dx : ℚ) - 1) * w < r_max :=
    lt_of_le_of_lt (axis_cell_bound b.Lx w d.nx hw hxpos hxle p.x q.x) hXabs
  have hDyb : ((Dy : ℚ) - 1) * w < r_max :=
    lt_of_le_of_lt (axis_cell_bound b.Ly w d.ny hw hypos hyle p.y q.y) hYabs
  have hDxs : Dx < (⌊r_max / w⌋).toNat + 2 := wdist_shell_bound hw hrmax hDxb
  have hDys : Dy < (⌊r_max / w⌋).toNat + 2 := wdist_shell_bound hw hrmax hDyb
  have hnzpos : 0 < d.nz ∧ Dz < (⌊r_max / w⌋).toNat + 2 := by
    by_cases hb : b.is2D
    · have h1 : d.nz = 1 := adjustedDims_z2 b w hb
      have h2 : Dz = 0 := by
        rw [hDz, hiz, hjz, h1, cellCoord1_one, cellCoord1_one]
        rfl
      omega
    · have hb' : b.is2D = false := by simp [Bool.not_eq_true] at hb; exact hb
      obtain ⟨hzpos, hzle⟩ := adjustedDims_z3 b w hw hb' (hzL hb')
      have hZlt : wrap1 b.Lz (p.z - q.z) * wrap1 b.Lz (p.z - q.z) < r_max * r_max := by
        rw [hb'] at hexp
        simp only [Bool.false_eq_true, if_false] at hexp
        nlinarith [mul_self_nonneg (wrap1 b.Lx (p.x - q.x)),
          mul_self_nonneg (wrap1 b.Ly (p.y - q.y))]
      have hZabs : |wrap1 b.Lz (p.z - q.z)| < r_max := abs_lt_of_sq_lt_sq hZlt hrmax
      have hDzb : ((Dz : ℚ) - 1) * w < r_max :=
        lt_of_le_of_lt (axis_cell_bound b.Lz w d.nz hw hzpos hzle p.z q.z) hZabs
      exact ⟨hzpos, wdist_shell_bound hw hrmax hDzb⟩
  obtain ⟨hzpos, hDzs⟩ := hnzpos
  -- representative offsets
  obtain ⟨δx, hδxa, hδxe⟩ := wdist_rep d.nx ix jx hxpos
    (cellCoord1_lt _ hxpos _) (cellCoord1_lt _ hxpos _)
  obtain ⟨δy, hδya, hδye⟩ := wdist_rep d.ny iy jy hypos
    (cellCoord1_lt _ hypos _) (cellCoord1_lt _ hypos _)
  obtain ⟨δz, hδza, hδze⟩ := wdist_rep d.nz iz jz hzpos
    (cellCoord1_lt _ hzpos _) (cellCoord1_lt _ hzpos _)
  set R := max (max Dx Dy) Dz with hR
  apply mem_ballVisitList.mpr
  refine ⟨R, mem_ballShells.mpr
    (show R < (⌊r_max / w⌋).toNat + 2 by omega),
    (δx, δy, δz), mem_shellOffsets.mpr ⟨?_, ?_⟩, ?_⟩
  · simp only
    omega
  · intro hb
    have h1 : d.nz = 1 := adjustedDims_z2 b w hb
    have h2 : Dz = 0 := by
      rw [hDz, hiz, hjz, h1, cellCoord1_one, cellCoord1_one]
      rfl
    simp only
    omega
  · -- getCellIndex lands on p's cell
    show coordToIndex d ((((ix : ℤ) + δx) % (d.nx : ℤ)).toNat)
        ((((iy : ℤ) + δy) % (d.ny : ℤ)).toNat)
        ((((iz : ℤ) + δz) % (d.nz : ℤ)).toNat) = cellOf ⟨b, w, d, pts⟩ p
    rw [hδxe, hδye, hδze]
    simp only [Int.toNat_natCast]
    rfl

/-- The squared-distance acceptance window of the ball query
(`r_sq < r_max_sq && r_sq >= r_min_sq`). -/
def ballWindow (lc : LinkCellState) (q : Vec3) (r_max r_min : ℚ) (j : ℕ) : Prop :=
  wrappedDistSq lc.box (lc.points.getD j ⟨0, 0, 0⟩) q < r_max * r_max ∧
  wrappedDistSq lc.box (lc.points.getD j ⟨0, 0, 0⟩) q ≥ r_min * r_min

lemma ballYield_ref_eq {lc : LinkCellState} {q : Vec3} {qidx : ℕ} {r_max r_min : ℚ}
    {excl : Bool} {j : ℕ} {bond : NeighborBond}
    (h : ((if excl = true ∧ qidx = j then none
      else
        let rsq := wrappedDistSq lc.box (lc.points.getD j ⟨0, 0, 0⟩) q
        if rsq < r_max * r_max ∧ rsq ≥ r_min * r_min then some ⟨qidx, j, rsq⟩
        else none) : Option NeighborBond) = some bond) : bond.ref_id = j := by
  simp only [] at h
  split_ifs at h with h1 h2
  injection h with h
  rw [← h]

lemma ballVisitList_nodup (lc : LinkCellState) (q : Vec3) (r_max : ℚ) :
    (ballVisitList lc q r_max).Nodup := by
  unfold ballVisitList
  exact List.nodup_dedup _

lemma cellBucket_nodup (lc : LinkCellState) (cell : ℕ) :
    (cellBucket lc cell).Nodup :=
  (List.nodup_range _).filter _

lemma ballQuery_mem_iff (lc : LinkCellState) (q : Vec3) (qidx : ℕ)
    (r_max r_min : ℚ) (bond : NeighborBond) :
    bond ∈ ballQuery lc q qidx r_max r_min false ↔
      ∃ j, j < lc.points.length ∧
        cellOf lc (lc.points.getD j ⟨0, 0, 0⟩) ∈ ballVisitList lc q r_max ∧
        ballWindow lc q r_max r_min j ∧
        bond = ⟨qidx, j, wrappedDistSq lc.box (lc.points.getD j ⟨0, 0, 0⟩) q⟩ := by
  unfold ballQuery
  rw [List.mem_flatMap]
  constructor
  · rintro ⟨cell, hcell, hbond⟩
    rcases List.mem_filterMap.mp hbond with ⟨j, hj, hfj⟩
    rcases mem_cellBucket.mp hj with ⟨hjlen, hjcell⟩
    simp only [] at hfj
    rw [if_neg (by simp)] at hfj
    split_ifs at hfj with hwin
    injection hfj with hfj
    refine ⟨j, hjlen, ?_, hwin, hfj.symm⟩
    rw [hjcell]
    exact hcell
  · rintro ⟨j, hjlen, hvis, hwin, rfl⟩
    refine ⟨cellOf lc (lc.points.getD j ⟨0, 0, 0⟩), hvis,
      List.mem_filterMap.mpr ⟨j, mem_cellBucket.mpr ⟨hjlen, rfl⟩, ?_⟩⟩
    simp only []
    rw [if_neg (by simp)]
    exact if_pos hwin

lemma bruteForceBall_mem_iff (lc : LinkCellState) (q : Vec3) (qidx : ℕ)
    (r_max r_min : ℚ) (bond : NeighborBond) :
    bond ∈ bruteForceBall lc q qidx r_max r_min ↔
      ∃ j, j < lc.points.length ∧ ballWindow lc q r_max r_min j ∧
        bond = ⟨qidx, j, wrappedDistSq lc.box (lc.points.getD j ⟨0, 0, 0⟩) q⟩ := by
  unfold bruteForceBall
  rw [List.mem_filterMap]
  constructor
  · rintro ⟨j, hj, hfj⟩
    simp only [] at hfj
    split_ifs at hfj with hwin
    injection hfj with hfj
    exact ⟨j, List.mem_range.mp hj, ⟨hwin.2, hwin.1⟩, hfj.symm⟩
  · rintro ⟨j, hjlen, hwin, rfl⟩
    refine ⟨j, List.mem_range.mpr hjlen, ?_⟩
    simp only []
    exact if_pos ⟨hwin.2, hwin.1⟩

/-- C1: for every valid box, point set, query point, `r_min` and `r_max`,
the set of bonds the ball-query iterator produces equals the brute-force
set of all (query, reference) pairs whose minimum-image wrapped squared
distance lies in `[r_min², r_max²)` (lower bound inclusive, upper bound
exclusive) — membership coincides bond for bond and the produced list has
no duplicates, i.e. order-independent set equality. -/
theorem ballQuery_matches_bruteForce (b : Box) (w : ℚ) (pts : List Vec3)
    (lc : LinkCellState) (hlc : LinkCell.construct b w pts = .ok lc)
    (q : Vec3) (qidx : ℕ) (r_max r_min : ℚ)
    (hw : 0 < w) (hrmax : 0 ≤ r_max)
    (h2d : b.is2D = true → (q.z = 0 ∧ ∀ p ∈ pts, p.z = 0)) :
    (ballQuery lc q qidx r_max r_min false).Nodup ∧
    ∀ bond, (bond ∈ ballQuery lc q qidx r_max r_min false ↔
      bond ∈ bruteForceBall lc q qidx r_max r_min) := by
  obtain ⟨hlceq, hxL, hyL, hzL, hne⟩ := linkCell_construct_ok hlc
  subst hlceq
  constructor
  · unfold ballQuery
    apply List.nodup_flatMap.mpr
    refine ⟨?_, ?_⟩
    · intro cell hcell
      refine List.Nodup.filterMap ?_ (cellBucket_nodup _ cell)
      intro j j' bond hb hb'
      have e1 : bond.ref_id = j := ballYield_ref_eq (Option.mem_def.mp hb)
      have e2 : bond.ref_id = j' := ballYield_ref_eq (Option.mem_def.mp hb')
      omega
    · refine List.Pairwise.imp_of_mem ?_ (ballVisitList_nodup _ q r_max)
      intro c c' hc hc' hne' bond hb1 hb2
      rcases List.mem_filterMap.mp hb1 with ⟨j, hj, hfj⟩
      rcases List.mem_filterMap.mp hb2 with ⟨j', hj', hfj'⟩
      have e1 : bond.ref_id = j := ballYield_ref_eq hfj
      have e2 : bond.ref_id = j' := ballYield_ref_eq hfj'
      have hjj : j = j' := by omega
      subst hjj
      rcases mem_cellBucket.mp hj with ⟨hl1, hc1⟩
      rcases mem_cellBucket.mp hj' with ⟨hl2, hc2⟩
      rw [← hc1, ← hc2] at hne'
      exact hne' rfl
  · intro bond
    rw [ballQuery_mem_iff, bruteForceBall_mem_iff]
    constructor
    · rintro ⟨j, h1, _, h3, h4⟩
      exact ⟨j, h1, h3, h4⟩
    · rintro ⟨j, h1, h3, h4⟩
      refine ⟨j, h1, ?_, h3, h4⟩
      have hpmem : pts.getD j ⟨0, 0, 0⟩ ∈ pts := by
        rw [List.getD_eq_getElem?_getD, List.getElem?_eq_getElem h1]
        exact List.getElem_mem _
      exact ball_cell_visited ⟨_, hlc⟩ hw q hrmax
        (fun h => (h2d h).1) (fun h => (h2d h).2 _ hpmem) h3.1

/-- A concrete 4×4×4 box with unit cell width and two points, as built by
the `LinkCell` constructor. -/
def lcWitness : LinkCellState :=
  ⟨⟨4, 4, 4, false⟩, 1, ⟨4, 4, 4⟩, [⟨0, 0, 0⟩, ⟨1, 0, 0⟩]⟩

lemma lcWitness_construct :
    LinkCell.construct ⟨4, 4, 4, false⟩ 1 [⟨0, 0, 0⟩, ⟨1, 0, 0⟩] = .ok lcWitness := by
  unfold LinkCell.construct adjustedDims computeDimensions lcWitness
  norm_num [Box.nearestPlaneDistance]
  rfl

/-- Witness for C1 on the concrete 4×4×4 box with two points. -/
theorem ballQuery_matches_bruteForce_witness :
    (LinkCell.construct ⟨4, 4, 4, false⟩ 1 [⟨0, 0, 0⟩, ⟨1, 0, 0⟩] = .ok lcWitness ∧
      (0 : ℚ) < 1 ∧ (0 : ℚ) ≤ 2) ∧
    ((ballQuery lcWitness ⟨0, 0, 0⟩ 0 2 0 false).Nodup ∧
     ∀ bond, (bond ∈ ballQuery lcWitness ⟨0, 0, 0⟩ 0 2 0 false ↔
        bond ∈ bruteForceBall lcWitness ⟨0, 0, 0⟩ 0 2 0)) :=
  ⟨⟨lcWitness_construct, by norm_num, by norm_num⟩,
   ballQuery_matches_bruteForce ⟨4, 4, 4, false⟩ 1 [⟨0, 0, 0⟩, ⟨1, 0, 0⟩]
     lcWitness lcWitness_construct ⟨0, 0, 0⟩ 0 2 0 (by norm_num) (by norm_num)
     (by simp)⟩

/-- The shell bound computed at the top of `LinkCellQueryIterator::next`:
`max_range = ceil(min_plane_distance / (2 * cell_width)) + 1`, where the
minimum runs over the periodic plane distances (z excluded in 2D). -/
def knnMaxRange (b : Box) (w : ℚ) : ℕ :=
  let plane := b.nearestPlaneDistance
  let minp := if b.is2D then min plane.x plane.y else min (min plane.x plane.y) plane.z
  (⌈minp / (2 * w)⌉).toNat + 1

/-- The number of cells of the grid. -/
def totalCells (d : CellDim) : ℕ := d.nx * d.ny * d.nz

/-- The Chebyshev shell (under periodic index wrap) at which the offset
iterator first reaches cell `c` from the query point's cell. -/
def cellShellDist (lc : LinkCellState) (q : Vec3) (c : ℕ) : ℕ :=
  let cq := cellCoordOf lc q
  let cc := indexToCoord lc.dims c
  max (max (wdist lc.dims.nx cq.1 cc.1) (wdist lc.dims.ny cq.2.1 cc.2.1))
    (wdist lc.dims.nz cq.2.2 cc.2.2)

/-- The sequence of (cell, shell) pairs the k-nearest iterator scans:
shells in increasing order up to `max_range`, and within the expansion
each cell exactly once at the first shell whose offsets reach it (the
`m_searched_cells` bookkeeping skips any later offset mapping to an
already-searched cell; spec §4.2 leaves the order within a shell
unspecified, and each cell's first shell is its wrapped Chebyshev distance
`cellShellDist` from the query cell). -/
def knnVisits (lc : LinkCellState) (q : Vec3) : List (ℕ × ℕ) :=
  (List.range (knnMaxRange lc.box lc.width)).flatMap (fun R =>
    ((List.range (totalCells lc.dims)).filter
      (fun c => cellShellDist lc q c = R)).map (fun c => (c, R)))

/-- One cell scan of `LinkCellQueryIterator::next`: the bucket filtered by
the self-pair exclusion and the squared-distance window, exactly as in the
ball query. -/
def scanCellBonds (lc : LinkCellState) (q : Vec3) (qidx : ℕ) (r_max r_min : ℚ)
    (exclude_ii : Bool) (cell : ℕ) : List NeighborBond :=
  (cellBucket lc cell).filterMap (fun j =>
    if exclude_ii ∧ qidx = j then none
    else
      let rsq := wrappedDistSq lc.box (lc.points.getD j ⟨0, 0, 0⟩) q
      if rsq < r_max * r_max ∧ rsq ≥ r_min * r_min then some ⟨qidx, j, rsq⟩
      else none)

/-- The comparator `std::sort` uses on `m_current_neighbors`
(`NeighborBond::operator<` compares distances; squared here). -/
def bondLE (b1 b2 : NeighborBond) : Bool := decide (b1.r_sq ≤ b2.r_sq)

/-- The candidate-expansion loop of `LinkCellQueryIterator::next`: scan the
next unsearched cell, keep `m_current_neighbors` sorted by distance, and
break out early once at least `num_neighbors` candidates are held and the
k-th smallest distance beats the closest possible distance
`(range - 1) * cell_width` of the next unsearched cell (both sides
compared squared here).  When the offset iterator reaches `max_range` the
loop ends with whatever was collected. -/
def knnCollect (lc : LinkCellState) (q : Vec3) (qidx : ℕ) (r_max r_min : ℚ)
    (exclude_ii : Bool) (num_neighbors : ℕ) (maxR : ℕ) :
    List (ℕ × ℕ) → List NeighborBond → List NeighborBond
  | [], cands => cands
  | (c, _) :: rest, cands =>
      let cands' := (cands ++ scanCellBonds lc q qidx r_max r_min exclude_ii c).mergeSort
        bondLE
      let nextR : ℕ := match rest with
        | [] => maxR
        | (_, R') :: _ => R'
      if num_neighbors ≤ cands'.length ∧
          (cands'.getD (num_neighbors - 1) ⟨0, 0, 0⟩).r_sq <
            (((nextR - 1 : ℕ) : ℚ) * lc.width) * (((nextR - 1 : ℕ) : ℚ) * lc.width) then
        cands'
      else knnCollect lc q qidx r_max r_min exclude_ii num_neighbors maxR rest cands'

/-- `LinkCellQueryIterator::next` run to the terminator: the expansion
loop above followed by the yield loop, which returns the first
`num_neighbors` collected bonds in ascending distance order and stops
early at any bond with `distance > r_max` (squared comparison here; the
window filter makes this vacuous). -/
def knnQuery (lc : LinkCellState) (q : Vec3) (qidx : ℕ) (num_neighbors : ℕ)
    (r_max r_min : ℚ) (exclude_ii : Bool) : List NeighborBond :=
  let maxR := knnMaxRange lc.box lc.width
  let cands := knnCollect lc q qidx r_max r_min exclude_ii num_neighbors maxR
    (knnVisits lc q) []
  (cands.take num_neighbors).takeWhile (fun bnd => decide (¬(r_max * r_max < bnd.r_sq)))

lemma scanCellBonds_nil_single (lc : LinkCellState) (q : Vec3) (r_max r_min : ℚ)
    (c : ℕ) (hlen : lc.points.length = 1) :
    scanCellBonds lc q 0 r_max r_min true c = [] := by
  unfold scanCellBonds
  rw [List.filterMap_eq_nil]
  intro j hj
  have hj1 : j < 1 := by
    have := List.mem_range.mp (List.mem_filter.mp (by
      unfold cellBucket at hj; exact hj)).1
    omega
  have hj0 : j = 0 := by omega
  subst hj0
  exact if_pos ⟨rfl, rfl⟩

lemma knnCollect_nil_of_scan_nil (lc : LinkCellState) (q : Vec3) (qidx : ℕ)
    (r_max r_min : ℚ) (excl : Bool) (k maxR : ℕ)
    (h : ∀ c, scanCellBonds lc q qidx r_max r_min excl c = []) :
    ∀ V, knnCollect lc q qidx r_max r_min excl k maxR V [] = [] := by
  intro V
  induction V with
  | nil => rfl
  | cons hd tl ih =>
    obtain ⟨c, R⟩ := hd
    unfold knnCollect
    simp only [h c, List.nil_append, List.mergeSort_nil]
    split
    · rfl
    · exact ih

/-- C9: with a single point used as both query and reference and
`exclude_ii = true`, both the ball-query iterator and the k-nearest
iterator yield zero bonds for every `r_max`, `r_min` and `k`: the sole
candidate index equals the query index and is skipped before the distance
test. -/
theorem exclude_ii_single_point_empty (b : Box) (w : ℚ) (p : Vec3)
    (lc : LinkCellState) (hlc : LinkCell.construct b w [p] = .ok lc)
    (k : ℕ) (r_max r_min : ℚ) :
    ballQuery lc p 0 r_max r_min true = [] ∧
    knnQuery lc p 0 k r_max r_min true = [] := by
  have hinv := linkCell_construct_ok hlc
  have hlen : lc.points.length = 1 := by rw [hinv.1]; rfl
  constructor
  · unfold ballQuery
    rw [List.flatMap_eq_nil_iff]
    intro cell _
    have := scanCellBonds_nil_single lc p r_max r_min cell hlen
    unfold scanCellBonds at this
    exact this
  · unfold knnQuery
    simp only []
    rw [knnCollect_nil_of_scan_nil lc p 0 r_max r_min true k
      (knnMaxRange lc.box lc.width)
      (fun c => scanCellBonds_nil_single lc p r_max r_min c hlen) (knnVisits lc p)]
    simp

/-- The single-point cell structure used by the C9 witness. -/
def lcWitness9 : LinkCellState :=
  ⟨⟨4, 4, 4, false⟩, 1, ⟨4, 4, 4⟩, [⟨0, 0, 0⟩]⟩

lemma lcWitness9_construct :
    LinkCell.construct ⟨4, 4, 4, false⟩ 1 [⟨0, 0, 0⟩] = .ok lcWitness9 := by
  unfold LinkCell.construct adjustedDims computeDimensions lcWitness9
  norm_num [Box.nearestPlaneDistance]
  rfl

/-- Witness for C9 on a concrete single-point system. -/
theorem exclude_ii_single_point_empty_witness :
    LinkCell.construct ⟨4, 4, 4, false⟩ 1 [⟨0, 0, 0⟩] = .ok lcWitness9 ∧
    (ballQuery lcWitness9 ⟨0, 0, 0⟩ 0 2 0 true = [] ∧
     knnQuery lcWitness9 ⟨0, 0, 0⟩ 0 3 2 0 true = []) :=
  ⟨lcWitness9_construct,
   exclude_ii_single_point_empty ⟨4, 4, 4, false⟩ 1 ⟨0, 0, 0⟩ lcWitness9
     lcWitness9_construct 3 2 0⟩

lemma mem_knnVisits {lc : LinkCellState} {q : Vec3} {c R : ℕ} :
    (c, R) ∈ knnVisits lc q ↔
      c < totalCells lc.dims ∧ cellShellDist lc q c = R ∧
        R < knnMaxRange lc.box lc.width := by
  unfold knnVisits
  simp only [List.mem_flatMap, List.mem_map, List.mem_filter, List.mem_range,
    decide_eq_true_eq, Prod.mk.injEq]
  constructor
  · rintro ⟨R', hR', c', ⟨⟨hc', hshell⟩, hce, hRe⟩⟩
    subst hce; subst hRe
    exact ⟨hc', hshell, hR'⟩
  · rintro ⟨hc, hshell, hR⟩
    exact ⟨R, hR, c, ⟨⟨hc, hshell⟩, rfl, rfl⟩⟩

lemma knnVisits_shell_sorted (lc : LinkCellState) (q : Vec3) :
    (knnVisits lc q).Pairwise (fun a b => a.2 ≤ b.2) := by
  unfold knnVisits
  rw [List.pairwise_flatMap]
  constructor
  · intro R hR
    rw [List.pairwise_map]
    exact List.pairwise_iff_getElem.mpr (fun i j hi hj hij => le_refl R)
  · refine (List.pairwise_lt_range _).imp ?_
    intro R1 R2 hlt x hx y hy
    rcases List.mem_map.mp hx with ⟨cx, _, hxe⟩
    rcases List.mem_map.mp hy with ⟨cy, _, hye⟩
    rw [← hxe, ← hye]
    exact le_of_lt hlt

lemma knnVisits_cells_nodup (lc : LinkCellState) (q : Vec3) :
    ((knnVisits lc q).map Prod.fst).Nodup := by
  unfold knnVisits
  rw [List.map_flatMap, List.nodup_flatMap]
  constructor
  · intro R hR
    simp only [List.map_map]
    have he : (Prod.fst ∘ fun c => ((c, R) : ℕ × ℕ)) = fun c => c := by
      funext c; rfl
    rw [he]
    have := (List.nodup_range (totalCells lc.dims)).filter
      (fun c => decide (cellShellDist lc q c = R))
    simpa using this
  · refine (List.pairwise_lt_range _).imp ?_
    intro R1 R2 hlt a ha1 ha2
    simp only [List.map_map] at ha1 ha2
    rcases List.mem_map.mp ha1 with ⟨c1, hc1, he1⟩
    rcases List.mem_map.mp ha2 with ⟨c2, hc2, he2⟩
    have hs1 := (List.mem_filter.mp hc1).2
    have hs2 := (List.mem_filter.mp hc2).2
    simp only [decide_eq_true_eq] at hs1 hs2
    have hc1e : c1 = a := by simpa using he1
    have hc2e : c2 = a := by simpa using he2
    rw [hc1e] at hs1
    rw [hc2e] at hs2
    omega

lemma adjustedDims_nz_pos (b : Box) (w : ℚ) (hw : 0 < w)
    (hzL : b.is2D = false → w * 2 ≤ b.Lz) : 0 < (adjustedDims b w).nz := by
  by_cases hb : b.is2D
  · rw [adjustedDims_z2 b w hb]
    omega
  · have hb' : b.is2D = false := by simp [Bool.not_eq_true] at hb; exact hb
    exact (adjustedDims_z3 b w hw hb' (hzL hb')).1

lemma cellShellDist_cellOf {b : Box} {w : ℚ} (pts : List Vec3) (hw : 0 < w)
    (hxL : w * 2 ≤ b.Lx) (hyL : w * 2 ≤ b.Ly) (hzL : b.is2D = false → w * 2 ≤ b.Lz)
    (q p : Vec3) :
    cellShellDist ⟨b, w, adjustedDims b w, pts⟩ q
        (cellOf ⟨b, w, adjustedDims b w, pts⟩ p) =
      max (max
        (wdist (adjustedDims b w).nx (cellCoord1 b.Lx (adjustedDims b w).nx q.x)
          (cellCoord1 b.Lx (adjustedDims b w).nx p.x))
        (wdist (adjustedDims b w).ny (cellCoord1 b.Ly (adjustedDims b w).ny q.y)
          (cellCoord1 b.Ly (adjustedDims b w).ny p.y)))
        (wdist (adjustedDims b w).nz (cellCoord1 b.Lz (adjustedDims b w).nz q.z)
          (cellCoord1 b.Lz (adjustedDims b w).nz p.z)) ∧
    cellOf ⟨b, w, adjustedDims b w, pts⟩ p < totalCells (adjustedDims b w) := by
  set d := adjustedDims b w with hd
  have hnx : 0 < d.nx := (adjustedDims_x b w hw hxL).1
  have hny : 0 < d.ny := (adjustedDims_y b w hw hyL).1
  have hnz : 0 < d.nz := adjustedDims_nz_pos b w hw hzL
  have hjx := cellCoord1_lt b.Lx hnx p.x
  have hjy := cellCoord1_lt b.Ly hny p.y
  have hjz := cellCoord1_lt b.Lz hnz p.z
  have hco : cellOf ⟨b, w, d, pts⟩ p =
      coordToIndex d (cellCoord1 b.Lx d.nx p.x) (cellCoord1 b.Ly d.ny p.y)
        (cellCoord1 b.Lz d.nz p.z) := rfl
  constructor
  · unfold cellShellDist
    rw [hco, indexToCoord_coordToIndex d hjx hjy hjz]
    rfl
  · rw [hco]
    exact coordToIndex_lt d hjx hjy hjz

lemma maxRange_bound_axis {w minp r_max : ℚ} {D : ℕ} (hw : 0 < w) (hrmax : 0 ≤ r_max)
    (hr2 : r_max * 2 ≤ minp) (hD : ((D : ℚ) - 1) * w < r_max) :
    D < (⌈minp / (2 * w)⌉).toNat + 1 := by
  have hminp : 0 ≤ minp := by linarith
  have h1 : ((D : ℚ) - 1) < r_max / w := (lt_div_iff hw).mpr hD
  have h2 : r_max / w ≤ minp / (2 * w) := by
    rw [div_le_div_iff hw (by positivity)]
    nlinarith
  have h3 : minp / (2 * w) ≤ ((⌈minp / (2 * w)⌉ : ℤ) : ℚ) := Int.le_ceil _
  have h4 : ((D : ℚ) - 1) < ((⌈minp / (2 * w)⌉ : ℤ) : ℚ) := by linarith
  have h5 : ((D : ℤ) - 1) < ⌈minp / (2 * w)⌉ := by exact_mod_cast h4
  have h6 : (0 : ℤ) ≤ ⌈minp / (2 * w)⌉ := Int.ceil_nonneg (by positivity)
  omega

lemma knn_cell_in_range {b : Box} {w : ℚ} (pts : List Vec3) (hw : 0 < w)
    (hxL : w * 2 ≤ b.Lx) (hyL : w * 2 ≤ b.Ly) (hzL : b.is2D = false → w * 2 ≤ b.Lz)
    (q : Vec3) {r_max : ℚ} (hrmax : 0 ≤ r_max)
    (hr2x : r_max * 2 ≤ b.Lx) (hr2y : r_max * 2 ≤ b.Ly)
    (hr2z : b.is2D = false → r_max * 2 ≤ b.Lz)
    (hq2d : b.is2D = true → q.z = 0) {p : Vec3} (hp2d : b.is2D = true → p.z = 0)
    (hlt : wrappedDistSq b p q < r_max * r_max) :
    cellOf ⟨b, w, adjustedDims b w, pts⟩ p < totalCells (adjustedDims b w) ∧
    cellShellDist ⟨b, w, adjustedDims b w, pts⟩ q
      (cellOf ⟨b, w, adjustedDims b w, pts⟩ p) < knnMaxRange b w := by
  obtain ⟨hshell, htot⟩ := cellShellDist_cellOf pts hw hxL hyL hzL q p
  set d := adjustedDims b w with hd
  obtain ⟨hxpos, hxle⟩ := adjustedDims_x b w hw hxL
  obtain ⟨hypos, hyle⟩ := adjustedDims_y b w hw hyL
  refine ⟨htot, ?_⟩
  rw [hshell]
  have hexp := wrappedDistSq_expand b p q
  have hXlt : wrap1 b.Lx (p.x - q.x) * wrap1 b.Lx (p.x - q.x) < r_max * r_max := by
    nlinarith [mul_self_nonneg (wrap1 b.Ly (p.y - q.y)),
      mul_self_nonneg (if b.is2D then p.z - q.z else wrap1 b.Lz (p.z - q.z))]
  have hYlt : wrap1 b.Ly (p.y - q.y) * wrap1 b.Ly (p.y - q.y) < r_max * r_max := by
    nlinarith [mul_self_nonneg (wrap1 b.Lx (p.x - q.x)),
      mul_self_nonneg (if b.is2D then p.z - q.z else wrap1 b.Lz (p.z - q.z))]
  have hXabs : |wrap1 b.Lx (p.x - q.x)| < r_max := abs_lt_of_sq_lt_sq hXlt hrmax
  have hYabs : |wrap1 b.Ly (p.y - q.y)| < r_max := abs_lt_of_sq_lt_sq hYlt hrmax
  set Dx := wdist d.nx (cellCoord1 b.Lx d.nx q.x) (cellCoord1 b.Lx d.nx p.x) with hDx
  set Dy := wdist d.ny (cellCoord1 b.Ly d.ny q.y) (cellCoord1 b.Ly d.ny p.y) with hDy
  set Dz := wdist d.nz (cellCoord1 b.Lz d.nz q.z) (cellCoord1 b.Lz d.nz p.z) with hDz
  have hDxb : ((Dx : ℚ) - 1) * w < r_max :=
    lt_of_le_of_lt (axis_cell_bound b.Lx w d.nx hw hxpos hxle p.x q.x) hXabs
  have hDyb : ((Dy : ℚ) - 1) * w < r_max :=
    lt_of_le_of_lt (axis_cell_bound b.Ly w d.ny hw hypos hyle p.y q.y) hYabs
  unfold knnMaxRange
  simp only [Box.nearestPlaneDistance]
  by_cases hb : b.is2D
  · simp only [hb, if_true]
    have hnz1 : d.nz = 1 := adjustedDims_z2 b w hb
    have hDz0 : Dz = 0 := by
      rw [hDz, hnz1, cellCoord1_one, cellCoord1_one]
      rfl
    have hminxy : r_max * 2 ≤ min b.Lx b.Ly := le_min hr2x hr2y
    have hx' := maxRange_bound_axis hw hrmax hminxy hDxb
    have hy' := maxRange_bound_axis hw hrmax hminxy hDyb
    omega
  · have hb' : b.is2D = false := by simp [Bool.not_eq_true] at hb; exact hb
    simp only [hb', Bool.false_eq_true, if_false]
    obtain ⟨hzpos, hzle⟩ := adjustedDims_z3 b w hw hb' (hzL hb')
    have hZlt : wrap1 b.Lz (p.z - q.z) * wrap1 b.Lz (p.z - q.z) < r_max * r_max := by
      rw [hb'] at hexp
      simp only [Bool.false_eq_true, if_false] at hexp
      nlinarith [mul_self_nonneg (wrap1 b.Lx (p.x - q.x)),
        mul_self_nonneg (wrap1 b.Ly (p.y - q.y))]
    have hZabs : |wrap1 b.Lz (p.z - q.z)| < r_max := abs_lt_of_sq_lt_sq hZlt hrmax
    have hDzb : ((Dz : ℚ) - 1) * w < r_max :=
      lt_of_le_of_lt (axis_cell_bound b.Lz w d.nz hw hzpos hzle p.z q.z) hZabs
    have hmin3 : r_max * 2 ≤ min (min b.Lx b.Ly) b.Lz :=
      le_min (le_min hr2x hr2y) (hr2z hb')
    have hx' := maxRange_bound_axis hw hrmax hmin3 hDxb
    have hy' := maxRange_bound_axis hw hrmax hmin3 hDyb
    have hz' := maxRange_bound_axis hw hrmax hmin3 hDzb
    omega

lemma wrappedDistSq_nonneg (b : Box) (p q : Vec3) : 0 ≤ wrappedDistSq b p q := by
  rw [wrappedDistSq_expand]
  have h1 := mul_self_nonneg (wrap1 b.Lx (p.x - q.x))
  have h2 := mul_self_nonneg (wrap1 b.Ly (p.y - q.y))
  have h3 := mul_self_nonneg (if b.is2D then p.z - q.z else wrap1 b.Lz (p.z - q.z))
  linarith

lemma knn_dist_lower {b : Box} {w : ℚ} (pts : List Vec3) (hw : 0 < w)
    (hxL : w * 2 ≤ b.Lx) (hyL : w * 2 ≤ b.Ly) (hzL : b.is2D = false → w * 2 ≤ b.Lz)
    (q p : Vec3)
    (hD : 1 ≤ cellShellDist ⟨b, w, adjustedDims b w, pts⟩ q
      (cellOf ⟨b, w, adjustedDims b w, pts⟩ p)) :
    ((cellShellDist ⟨b, w, adjustedDims b w, pts⟩ q
        (cellOf ⟨b, w, adjustedDims b w, pts⟩ p) : ℚ) - 1) * w *
      (((cellShellDist ⟨b, w, adjustedDims b w, pts⟩ q
        (cellOf ⟨b, w, adjustedDims b w, pts⟩ p) : ℚ) - 1) * w) ≤
      wrappedDistSq b p q := by
  obtain ⟨hshell, _⟩ := cellShellDist_cellOf pts hw hxL hyL hzL q p
  set d := adjustedDims b w with hd
  obtain ⟨hxpos, hxle⟩ := adjustedDims_x b w hw hxL
  obtain ⟨hypos, hyle⟩ := adjustedDims_y b w hw hyL
  set Dx := wdist d.nx (cellCoord1 b.Lx d.nx q.x) (cellCoord1 b.Lx d.nx p.x) with hDx
  set Dy := wdist d.ny (cellCoord1 b.Ly d.ny q.y) (cellCoord1 b.Ly d.ny p.y) with hDy
  set Dz := wdist d.nz (cellCoord1 b.Lz d.nz q.z) (cellCoord1 b.Lz d.nz p.z) with hDz
  set D := cellShellDist ⟨b, w, d, pts⟩ q (cellOf ⟨b, w, d, pts⟩ p) with hDdef
  have hexp := wrappedDistSq_expand b p q
  have hD1 : (1 : ℚ) ≤ (D : ℚ) := by exact_mod_cast hD
  have hnn : 0 ≤ ((D : ℚ) - 1) * w := mul_nonneg (by linarith) (le_of_lt hw)
  have hcase : D = Dx ∨ D = Dy ∨ D = Dz := by
    omega
  rcases hcase with hc | hc | hc
  · have haxis := axis_cell_bound b.Lx w d.nx hw hxpos hxle p.x q.x
    rw [← hDx, ← hc] at haxis
    have hsq : ((D : ℚ) - 1) * w * (((D : ℚ) - 1) * w) ≤
        |wrap1 b.Lx (p.x - q.x)| * |wrap1 b.Lx (p.x - q.x)| :=
      mul_self_le_mul_self hnn haxis
    rw [abs_mul_abs_self] at hsq
    nlinarith [mul_self_nonneg (wrap1 b.Ly (p.y - q.y)),
      mul_self_nonneg (if b.is2D then p.z - q.z else wrap1 b.Lz (p.z - q.z))]
  · have haxis := axis_cell_bound b.Ly w d.ny hw hypos hyle p.y q.y
    rw [← hDy, ← hc] at haxis
    have hsq : ((D : ℚ) - 1) * w * (((D : ℚ) - 1) * w) ≤
        |wrap1 b.Ly (p.y - q.y)| * |wrap1 b.Ly (p.y - q.y)| :=
      mul_self_le_mul_self hnn haxis
    rw [abs_mul_abs_self] at hsq
    nlinarith [mul_self_nonneg (wrap1 b.Lx (p.x - q.x)),
      mul_self_nonneg (if b.is2D then p.z - q.z else wrap1 b.Lz (p.z - q.z))]
  · by_cases hb : b.is2D
    · have hnz1 : d.nz = 1 := adjustedDims_z2 b w hb
      have hDz0 : Dz = 0 := by
        rw [hDz, hnz1, cellCoord1_one, cellCoord1_one]
        rfl
      omega
    · have hb' : b.is2D = false := by simp [Bool.not_eq_true] at hb; exact hb
      obtain ⟨hzpos, hzle⟩ := adjustedDims_z3 b w hw hb' (hzL hb')
      have haxis := axis_cell_bound b.Lz w d.nz hw hzpos hzle p.z q.z
      rw [← hDz, ← hc] at haxis
      have hsq : ((D : ℚ) - 1) * w * (((D : ℚ) - 1) * w) ≤
          |wrap1 b.Lz (p.z - q.z)| * |wrap1 b.Lz (p.z - q.z)| :=
        mul_self_le_mul_self hnn haxis
      rw [abs_mul_abs_self] at hsq
      rw [hb'] at hexp
      simp only [Bool.false_eq_true, if_false] at hexp
      nlinarith [mul_self_nonneg (wrap1 b.Lx (p.x - q.x)),
        mul_self_nonneg (wrap1 b.Ly (p.y - q.y))]

/-- The bond the k-nearest iterator would emit for reference index `j`. -/
def knnBond (lc : LinkCellState) (q : Vec3) (qidx j : ℕ) : NeighborBond :=
  ⟨qidx, j, wrappedDistSq lc.box (lc.points.getD j ⟨0, 0, 0⟩) q⟩

/-- A reference index the window accepts. -/
def knnValid (lc : LinkCellState) (q : Vec3) (r_max r_min : ℚ) (j : ℕ) : Prop :=
  j < lc.points.length ∧ ballWindow lc q r_max r_min j

lemma mem_scanCellBonds {lc : LinkCellState} {q : Vec3} {qidx : ℕ}
    {r_max r_min : ℚ} {c : ℕ} {bond : NeighborBond} :
    bond ∈ scanCellBonds lc q qidx r_max r_min false c ↔
      ∃ j, j < lc.points.length ∧ cellOf lc (lc.points.getD j ⟨0, 0, 0⟩) = c ∧
        ballWindow lc q r_max r_min j ∧ bond = knnBond lc q qidx j := by
  unfold scanCellBonds
  rw [List.mem_filterMap]
  constructor
  · rintro ⟨j, hj, hfj⟩
    rcases mem_cellBucket.mp hj with ⟨hjlen, hjcell⟩
    simp only [] at hfj
    rw [if_neg (by simp)] at hfj
    split_ifs at hfj with hwin
    injection hfj with hfj
    exact ⟨j, hjlen, hjcell, hwin, hfj.symm⟩
  · rintro ⟨j, hjlen, hjcell, hwin, rfl⟩
    refine ⟨j, mem_cellBucket.mpr ⟨hjlen, hjcell⟩, ?_⟩
    simp only []
    rw [if_neg (by simp)]
    exact if_pos hwin

lemma refs_nodup_of_filterMap {f : ℕ → Option NeighborBond} {l : List ℕ}
    (hl : l.Nodup) (h : ∀ j bond, f j = some bond → bond.ref_id = j) :
    ((l.filterMap f).map NeighborBond.ref_id).Nodup := by
  induction l with
  | nil => simp
  | cons a l ih =>
    obtain ⟨ha, hl'⟩ := List.nodup_cons.mp hl
    rw [List.filterMap_cons]
    cases hfa : f a with
    | none => exact ih hl'
    | some bond =>
      simp only [List.map_cons, List.nodup_cons]
      refine ⟨?_, ih hl'⟩
      intro hmem
      rcases List.mem_map.mp hmem with ⟨bond', hb', heq⟩
      rcases List.mem_filterMap.mp hb' with ⟨j, hj, hfj⟩
      have h1 := h j bond' hfj
      have h2 := h a bond hfa
      rw [h1, h2] at heq
      rw [heq] at hj
      exact ha hj

lemma scanCellBonds_refs_nodup (lc : LinkCellState) (q : Vec3) (qidx : ℕ)
    (r_max r_min : ℚ) (c : ℕ) :
    ((scanCellBonds lc q qidx r_max r_min false c).map NeighborBond.ref_id).Nodup := by
  unfold scanCellBonds
  refine refs_nodup_of_filterMap (cellBucket_nodup lc c) ?_
  intro j bond hfj
  exact ballYield_ref_eq hfj

lemma bondLE_trans (a b c : NeighborBond) (h1 : bondLE a b = true)
    (h2 : bondLE b c = true) : bondLE a c = true := by
  simp only [bondLE, decide_eq_true_eq] at h1 h2 ⊢
  exact le_trans h1 h2

lemma bondLE_total (a b : NeighborBond) : (bondLE a b || bondLE b a) = true := by
  simp only [bondLE, Bool.or_eq_true, decide_eq_true_eq]
  exact le_total a.r_sq b.r_sq

lemma mergeSort_bonds_sorted (l : List NeighborBond) :
    (l.mergeSort bondLE).Pairwise (fun a b => a.r_sq ≤ b.r_sq) := by
  refine (List.sorted_mergeSort bondLE_trans bondLE_total l).imp ?_
  intro a b h
  simpa [bondLE] using h

lemma sorted_take_le {l : List NeighborBond}
    (hs : l.Pairwise (fun a b => a.r_sq ≤ b.r_sq)) {k : ℕ} (hk1 : 1 ≤ k)
    (hkl : k ≤ l.length) {x : NeighborBond} (hx : x ∈ l.take k) :
    x.r_sq ≤ (l.getD (k - 1) ⟨0, 0, 0⟩).r_sq := by
  rw [List.getD_eq_getElem l _ (by omega)]
  rcases List.mem_iff_getElem.mp hx with ⟨i, hi, hxe⟩
  have hil : i < l.length := by
    rw [List.length_take] at hi
    omega
  have hik : i < k := by
    rw [List.length_take] at hi
    omega
  have hxl : l[i] = x := by
    rw [← hxe, List.getElem_take]
  rcases Nat.lt_or_ge i (k - 1) with hlt | hge
  · have := List.pairwise_iff_getElem.mp hs i (k - 1) hil (by omega) hlt
    rw [hxl] at this
    exact this
  · have hieq : i = k - 1 := by omega
    subst hieq
    rw [hxl]

lemma knnBond_ref (lc : LinkCellState) (q : Vec3) (qidx j : ℕ) :
    (knnBond lc q qidx j).ref_id = j := rfl

lemma knnCollect_cons (lc : LinkCellState) (q : Vec3) (qidx : ℕ) (r_max r_min : ℚ)
    (excl : Bool) (k maxR c R : ℕ) (rest : List (ℕ × ℕ)) (cands : List NeighborBond) :
    knnCollect lc q qidx r_max r_min excl k maxR ((c, R) :: rest) cands =
      (let cands' := (cands ++ scanCellBonds lc q qidx r_max r_min excl c).mergeSort bondLE
       let nextR : ℕ := match rest with
         | [] => maxR
         | (_, R') :: _ => R'
       if k ≤ cands'.length ∧ (cands'.getD (k - 1) ⟨0, 0, 0⟩).r_sq <
           (((nextR - 1 : ℕ) : ℚ) * lc.width) * (((nextR - 1 : ℕ) : ℚ) * lc.width) then
         cands'
       else knnCollect lc q qidx r_max r_min excl k maxR rest cands') := rfl

/-- Post-condition of the candidate-expansion loop: the collected list is
sorted by squared distance, has no duplicate reference indices, contains
only window-accepted bonds, and either holds every window-accepted bond
(the offset iterator was exhausted) or holds at least `k` bonds whose
k-th smallest squared distance is a lower bound on every window-accepted
bond it misses (the early break fired). -/
def knnPost (lc : LinkCellState) (q : Vec3) (qidx : ℕ) (r_max r_min : ℚ)
    (k : ℕ) (res : List NeighborBond) : Prop :=
  res.Pairwise (fun a b => a.r_sq ≤ b.r_sq) ∧
  (res.map NeighborBond.ref_id).Nodup ∧
  (∀ bond ∈ res, ∃ j, knnValid lc q r_max r_min j ∧ bond = knnBond lc q qidx j) ∧
  ((∀ j, knnValid lc q r_max r_min j → knnBond lc q qidx j ∈ res) ∨
   (k ≤ res.length ∧ ∀ j, knnValid lc q r_max r_min j →
      knnBond lc q qidx j ∉ res →
      (res.getD (k - 1) ⟨0, 0, 0⟩).r_sq ≤
        wrappedDistSq lc.box (lc.points.getD j ⟨0, 0, 0⟩) q))

lemma knnCollect_post (lc : LinkCellState) (q : Vec3) (qidx : ℕ)
    (r_max r_min : ℚ) (k maxR : ℕ) (hw : 0 < lc.width)
    (hfar : ∀ j, j < lc.points.length →
      1 ≤ cellShellDist lc q (cellOf lc (lc.points.getD j ⟨0, 0, 0⟩)) →
      ((cellShellDist lc q (cellOf lc (lc.points.getD j ⟨0, 0, 0⟩)) : ℚ) - 1) *
          lc.width *
        (((cellShellDist lc q (cellOf lc (lc.points.getD j ⟨0, 0, 0⟩)) : ℚ) - 1) *
          lc.width)
        ≤ wrappedDistSq lc.box (lc.points.getD j ⟨0, 0, 0⟩) q) :
    ∀ (V : List (ℕ × ℕ)) (cands : List NeighborBond),
      (∀ pr ∈ V, cellShellDist lc q pr.1 = pr.2) →
      V.Pairwise (fun a b => a.2 ≤ b.2) →
      (V.map Prod.fst).Nodup →
      (∀ bond, bond ∈ cands ↔ ∃ j, knnValid lc q r_max r_min j ∧
        cellOf lc (lc.points.getD j ⟨0, 0, 0⟩) ∉ V.map Prod.fst ∧
        bond = knnBond lc q qidx j) →
      cands.Pairwise (fun a b => a.r_sq ≤ b.r_sq) →
      (cands.map NeighborBond.ref_id).Nodup →
      knnPost lc q qidx r_max r_min k
        (knnCollect lc q qidx r_max r_min false k maxR V cands) := by
  intro V
  induction V with
  | nil =>
    intro cands hVmem hVsort hVnodup hcands hsorted hnodup
    refine ⟨hsorted, hnodup, ?_, Or.inl ?_⟩
    · intro bond hbond
      rcases (hcands bond).mp hbond with ⟨j, hvj, _, hbe⟩
      exact ⟨j, hvj, hbe⟩
    · intro j hvj
      exact (hcands _).mpr ⟨j, hvj, by simp, rfl⟩
  | cons hd rest ih =>
    obtain ⟨c, R⟩ := hd
    intro cands hVmem hVsort hVnodup hcands hsorted hnodup
    have hVn : (c :: rest.map Prod.fst).Nodup := by simpa using hVnodup
    have hcnotrest : c ∉ rest.map Prod.fst := (List.nodup_cons.mp hVn).1
    rw [knnCollect_cons]
    simp only []
    set scan := scanCellBonds lc q qidx r_max r_min false c with hscan
    set cands' := (cands ++ scan).mergeSort bondLE with hcdef
    have hperm : cands'.Perm (cands ++ scan) := List.mergeSort_perm _ _
    have hmem' : ∀ bond, bond ∈ cands' ↔ ∃ j, knnValid lc q r_max r_min j ∧
        cellOf lc (lc.points.getD j ⟨0, 0, 0⟩) ∉ rest.map Prod.fst ∧
        bond = knnBond lc q qidx j := by
      intro bond
      rw [hperm.mem_iff, List.mem_append]
      constructor
      · rintro (hb | hb)
        · rcases (hcands bond).mp hb with ⟨j, hvj, hcell, hbe⟩
          refine ⟨j, hvj, ?_, hbe⟩
          simp only [List.map_cons, List.mem_cons] at hcell
          intro hcon
          exact hcell (Or.inr hcon)
        · rcases mem_scanCellBonds.mp hb with ⟨j, hjlen, hjcell, hwin, hbe⟩
          refine ⟨j, ⟨hjlen, hwin⟩, ?_, hbe⟩
          rw [hjcell]
          exact hcnotrest
      · rintro ⟨j, hvj, hcell, hbe⟩
        by_cases hc : cellOf lc (lc.points.getD j ⟨0, 0, 0⟩) = c
        · exact Or.inr (mem_scanCellBonds.mpr ⟨j, hvj.1, hc, hvj.2, hbe⟩)
        · refine Or.inl ((hcands bond).mpr ⟨j, hvj, ?_, hbe⟩)
          simp only [List.map_cons, List.mem_cons]
          rintro (h | h)
          exacts [hc h, hcell h]
    have hsorted' : cands'.Pairwise (fun a b => a.r_sq ≤ b.r_sq) :=
      mergeSort_bonds_sorted _
    have hnodup' : (cands'.map NeighborBond.ref_id).Nodup := by
      refine ((hperm.map NeighborBond.ref_id).nodup_iff).mpr ?_
      rw [List.map_append]
      refine List.Nodup.append hnodup (scanCellBonds_refs_nodup lc q qidx r_max r_min c) ?_
      intro x hx1 hx2
      rcases List.mem_map.mp hx1 with ⟨bond1, hb1, he1⟩
      rcases List.mem_map.mp hx2 with ⟨bond2, hb2, he2⟩
      rcases (hcands bond1).mp hb1 with ⟨j1, hv1, hcell1, hbe1⟩
      rcases mem_scanCellBonds.mp hb2 with ⟨j2, hjlen2, hjcell2, hwin2, hbe2⟩
      have hr1 : bond1.ref_id = j1 := by rw [hbe1]; rfl
      have hr2 : bond2.ref_id = j2 := by rw [hbe2]; rfl
      have hj12 : j1 = j2 := by
        rw [hr1] at he1
        rw [hr2] at he2
        omega
      apply hcell1
      simp only [List.map_cons, List.mem_cons]
      left
      rw [hj12, hjcell2]
    have hget_nonneg : 0 ≤ (cands'.getD (k - 1) ⟨0, 0, 0⟩).r_sq := by
      by_cases hkl : k - 1 < cands'.length
      · rw [List.getD_eq_getElem _ _ hkl]
        rcases (hmem' _).mp (cands'.getElem_mem hkl) with ⟨j, _, _, hbe⟩
        rw [hbe]
        exact wrappedDistSq_nonneg _ _ _
      · rw [List.getD_eq_default _ _ (by omega)]
    split_ifs with hbrk
    · -- early break: return cands'
      refine ⟨hsorted', hnodup', ?_, Or.inr ⟨hbrk.1, ?_⟩⟩
      · intro bond hbond
        rcases (hmem' bond).mp hbond with ⟨j, hvj, _, hbe⟩
        exact ⟨j, hvj, hbe⟩
      · intro j hvj hnotin
        have hcellin : cellOf lc (lc.points.getD j ⟨0, 0, 0⟩) ∈ rest.map Prod.fst := by
          by_contra hno
          exact hnotin ((hmem' _).mpr ⟨j, hvj, hno, rfl⟩)
        rcases List.mem_map.mp hcellin with ⟨pr, hpr, hpre⟩
        obtain ⟨c2, R2⟩ := pr
        have hshell2 : cellShellDist lc q c2 = R2 :=
          hVmem (c2, R2) (List.mem_cons_of_mem _ hpr)
        cases rest with
        | nil => simp at hpr
        | cons hd2 rest2 =>
          obtain ⟨cH, RH⟩ := hd2
          have hR2RH : RH ≤ R2 := by
            rcases List.mem_cons.mp hpr with he | hmem2
            · have : R2 = RH := by
                have := congrArg Prod.snd he
                simpa using this
              omega
            · have hp := List.pairwise_cons.mp hVsort
              have hp2 := List.pairwise_cons.mp hp.2
              exact hp2.1 (c2, R2) hmem2
          rcases Nat.eq_zero_or_pos RH with h0 | hpos
          · exfalso
            rw [h0] at hbrk
            simp only [Nat.zero_sub, Nat.cast_zero, zero_mul, mul_zero] at hbrk
            linarith [hbrk.2]
          · have hcj : cellShellDist lc q (cellOf lc (lc.points.getD j ⟨0, 0, 0⟩)) = R2 := by
              have : (c2, R2).1 = cellOf lc (lc.points.getD j ⟨0, 0, 0⟩) := hpre
              simp only [] at this
              rw [← this]
              exact hshell2
            have hD1 : 1 ≤ cellShellDist lc q (cellOf lc (lc.points.getD j ⟨0, 0, 0⟩)) := by
              omega
            have hlow := hfar j hvj.1 hD1
            rw [hcj] at hlow
            have hR21 : 1 ≤ R2 := by omega
            have hcastH : ((RH - 1 : ℕ) : ℚ) = (RH : ℚ) - 1 := by
              push_cast [Nat.cast_sub hpos]
              ring
            have hcast2 : ((R2 - 1 : ℕ) : ℚ) = (R2 : ℚ) - 1 := by
              push_cast [Nat.cast_sub hR21]
              ring
            have hAB : (0 : ℚ) ≤ ((RH - 1 : ℕ) : ℚ) * lc.width :=
              mul_nonneg (by positivity) (le_of_lt hw)
            have hABle : ((RH - 1 : ℕ) : ℚ) * lc.width ≤ ((R2 : ℚ) - 1) * lc.width := by
              rw [hcastH]
              have : ((RH : ℚ) - 1) ≤ ((R2 : ℚ) - 1) := by
                have : (RH : ℚ) ≤ (R2 : ℚ) := by exact_mod_cast hR2RH
                linarith
              exact mul_le_mul_of_nonneg_right this (le_of_lt hw)
            have hsq : (((RH - 1 : ℕ) : ℚ) * lc.width) * (((RH - 1 : ℕ) : ℚ) * lc.width) ≤
                (((R2 : ℚ) - 1) * lc.width) * (((R2 : ℚ) - 1) * lc.width) :=
              mul_self_le_mul_self hAB hABle
            have hbrk2 := hbrk.2
            linarith
    · -- continue with the next cell
      exact ih cands' (fun pr hpr => hVmem pr (List.mem_cons_of_mem _ hpr))
        (List.pairwise_cons.mp hVsort).2
        (by
          have := List.nodup_cons.mp hVn
          simpa using this.2)
        hmem' hsorted' hnodup'

lemma bruteForceBall_refs_nodup (lc : LinkCellState) (q : Vec3) (qidx : ℕ)
    (r_max r_min : ℚ) :
    ((bruteForceBall lc q qidx r_max r_min).map NeighborBond.ref_id).Nodup := by
  unfold bruteForceBall
  refine refs_nodup_of_filterMap (List.nodup_range _) ?_
  intro j bond hfj
  simp only [] at hfj
  split_ifs at hfj
  injection hfj with h
  rw [← h]

lemma bruteForceBall_refs_mem (lc : LinkCellState) (q : Vec3) (qidx : ℕ)
    (r_max r_min : ℚ) (j : ℕ) :
    j ∈ (bruteForceBall lc q qidx r_max r_min).map NeighborBond.ref_id ↔
      knnValid lc q r_max r_min j := by
  rw [List.mem_map]
  constructor
  · rintro ⟨bond, hb, he⟩
    rcases (bruteForceBall_mem_iff lc q qidx r_max r_min bond).mp hb with
      ⟨j', hlen, hwin, hbe⟩
    have hr : bond.ref_id = j' := by rw [hbe]
    rw [hr] at he
    rw [← he]
    exact ⟨hlen, hwin⟩
  · rintro ⟨hlen, hwin⟩
    exact ⟨knnBond lc q qidx j,
      (bruteForceBall_mem_iff lc q qidx r_max r_min _).mpr ⟨j, hlen, hwin, rfl⟩, rfl⟩

lemma knnBond_mem_bruteForceBall (lc : LinkCellState) (q : Vec3) (qidx : ℕ)
    (r_max r_min : ℚ) (j : ℕ) (h : knnValid lc q r_max r_min j) :
    knnBond lc q qidx j ∈ bruteForceBall lc q qidx r_max r_min :=
  (bruteForceBall_mem_iff lc q qidx r_max r_min _).mpr ⟨j, h.1, h.2, rfl⟩

/-- C2: for every `k ≥ 1` and valid inputs (a constructed cell structure,
`0 ≤ r_max` with `2·r_max` at most every periodic box extent), the
k-nearest query iterator run to the terminator yields exactly
`min(k, count of points with r_min ≤ d < r_max)` bonds (the count is the
brute-force list's length), sorted ascending by distance (squared
comparison, equivalent for nonnegative distances), with no duplicate
reference index; every yielded bond belongs to the brute-force window
set, and every brute-force bond is either yielded or at least as far as
every yielded bond — i.e. the yield is a closest-k selection of the
brute-force set.  When fewer than k valid neighbors exist this gives
exactly the brute-force set. -/
theorem knnQuery_matches_bruteForce (b : Box) (w : ℚ) (pts : List Vec3)
    (lc : LinkCellState) (hlc : LinkCell.construct b w pts = .ok lc)
    (q : Vec3) (qidx : ℕ) (k : ℕ) (r_max r_min : ℚ)
    (hw : 0 < w) (hrmax : 0 ≤ r_max) (hk : 1 ≤ k)
    (hr2x : r_max * 2 ≤ b.Lx) (hr2y : r_max * 2 ≤ b.Ly)
    (hr2z : b.is2D = false → r_max * 2 ≤ b.Lz)
    (h2d : b.is2D = true → (q.z = 0 ∧ ∀ p ∈ pts, p.z = 0)) :
    (knnQuery lc q qidx k r_max r_min false).length =
      min k (bruteForceBall lc q qidx r_max r_min).length ∧
    (knnQuery lc q qidx k r_max r_min false).Pairwise
      (fun b1 b2 => b1.r_sq ≤ b2.r_sq) ∧
    ((knnQuery lc q qidx k r_max r_min false).map NeighborBond.ref_id).Nodup ∧
    (∀ bond ∈ knnQuery lc q qidx k r_max r_min false,
        bond ∈ bruteForceBall lc q qidx r_max r_min) ∧
    (∀ bond ∈ bruteForceBall lc q qidx r_max r_min,
        bond ∈ knnQuery lc q qidx k r_max r_min false ∨
        ∀ bond' ∈ knnQuery lc q qidx k r_max r_min false,
          bond'.r_sq ≤ bond.r_sq) := by
  obtain ⟨hlceq, hxL, hyL, hzL, hne⟩ := linkCell_construct_ok hlc
  subst hlceq
  set lc : LinkCellState := ⟨b, w, adjustedDims b w, pts⟩ with hlcdef
  have hfar : ∀ j, j < lc.points.length →
      1 ≤ cellShellDist lc q (cellOf lc (lc.points.getD j ⟨0, 0, 0⟩)) →
      ((cellShellDist lc q (cellOf lc (lc.points.getD j ⟨0, 0, 0⟩)) : ℚ) - 1) *
          lc.width *
        (((cellShellDist lc q (cellOf lc (lc.points.getD j ⟨0, 0, 0⟩)) : ℚ) - 1) *
          lc.width)
        ≤ wrappedDistSq lc.box (lc.points.getD j ⟨0, 0, 0⟩) q := by
    intro j hj hD
    exact knn_dist_lower pts hw hxL hyL hzL q _ hD
  have hinit : ∀ bond : NeighborBond, bond ∈ ([] : List NeighborBond) ↔
      ∃ j, knnValid lc q r_max r_min j ∧
        cellOf lc (lc.points.getD j ⟨0, 0, 0⟩) ∉ (knnVisits lc q).map Prod.fst ∧
        bond = knnBond lc q qidx j := by
    intro bond
    simp only [List.not_mem_nil, false_iff]
    rintro ⟨j, hvj, hcell, _⟩
    apply hcell
    have hpmem : pts.getD j ⟨0, 0, 0⟩ ∈ pts := by
      rw [List.getD_eq_getElem?_getD, List.getElem?_eq_getElem hvj.1]
      exact List.getElem_mem _
    obtain ⟨hcelllt, hshelllt⟩ := knn_cell_in_range pts hw hxL hyL hzL q hrmax
      hr2x hr2y hr2z (fun h => (h2d h).1) (fun h => (h2d h).2 _ hpmem) hvj.2.1
    exact List.mem_map.mpr
      ⟨(cellOf lc (lc.points.getD j ⟨0, 0, 0⟩),
        cellShellDist lc q (cellOf lc (lc.points.getD j ⟨0, 0, 0⟩))),
       mem_knnVisits.mpr ⟨hcelllt, rfl, hshelllt⟩, rfl⟩
  have hpost := knnCollect_post lc q qidx r_max r_min k (knnMaxRange lc.box lc.width)
    hw hfar (knnVisits lc q) []
    (by
      intro pr hpr
      obtain ⟨c, R⟩ := pr
      exact (mem_knnVisits.mp hpr).2.1)
    (knnVisits_shell_sorted lc q) (knnVisits_cells_nodup lc q) hinit
    List.Pairwise.nil (by simp)
  set res := knnCollect lc q qidx r_max r_min false k
    (knnMaxRange lc.box lc.width) (knnVisits lc q) [] with hresdef
  obtain ⟨hsorted, hnodup, hsound, hcases⟩ := hpost
  have hout : knnQuery lc q qidx k r_max r_min false = res.take k := by
    unfold knnQuery
    simp only []
    rw [← hresdef]
    apply List.takeWhile_eq_self_iff.mpr
    intro x hx
    rcases hsound x (List.mem_of_mem_take hx) with ⟨j, hvj, hbe⟩
    simp only [decide_eq_true_eq]
    rw [hbe]
    exact not_lt.mpr (le_of_lt hvj.2.1)
  have hsub : res.map NeighborBond.ref_id ⊆
      (bruteForceBall lc q qidx r_max r_min).map NeighborBond.ref_id := by
    intro x hx
    rcases List.mem_map.mp hx with ⟨bond, hb, he⟩
    rcases hsound bond hb with ⟨j, hvj, hbe⟩
    have hr : bond.ref_id = j := by rw [hbe]; rfl
    rw [hr] at he
    rw [← he]
    exact (bruteForceBall_refs_mem lc q qidx r_max r_min j).mpr hvj
  have hlenle : res.length ≤ (bruteForceBall lc q qidx r_max r_min).length := by
    have h1 := (List.subperm_of_subset hnodup hsub).length_le
    rw [List.length_map, List.length_map] at h1
    exact h1
  have hsorted_take : (res.take k).Pairwise (fun b1 b2 => b1.r_sq ≤ b2.r_sq) :=
    List.Pairwise.sublist (List.take_sublist k res) hsorted
  have hmem_of_res : ∀ bond, knnBond lc q qidx bond ∈ res →
      knnBond lc q qidx bond ∈ res.take k ∨
      ∀ bond' ∈ res.take k, bond'.r_sq ≤ (knnBond lc q qidx bond).r_sq := by
    intro j hin
    have hsplit : res.take k ++ res.drop k = res := List.take_append_drop k res
    rw [← hsplit] at hin
    rcases List.mem_append.mp hin with hin | hin
    · exact Or.inl hin
    · right
      intro bond' hb'
      have hsp := hsorted
      rw [← hsplit] at hsp
      exact (List.pairwise_append.mp hsp).2.2 bond' hb' _ hin
  refine ⟨?_, ?_, ?_, ?_, ?_⟩
  · -- length
    rw [hout, List.length_take]
    rcases hcases with hcomp | hbrk
    · have hsub2 : (bruteForceBall lc q qidx r_max r_min).map NeighborBond.ref_id ⊆
          res.map NeighborBond.ref_id := by
        intro x hx
        have hvx := (bruteForceBall_refs_mem lc q qidx r_max r_min x).mp hx
        exact List.mem_map.mpr ⟨knnBond lc q qidx x, hcomp x hvx, rfl⟩
      have hperm := List.Subperm.antisymm
        (List.subperm_of_subset hnodup hsub)
        (List.subperm_of_subset (bruteForceBall_refs_nodup lc q qidx r_max r_min) hsub2)
      have hlen := hperm.length_eq
      rw [List.length_map, List.length_map] at hlen
      omega
    · have := hbrk.1
      omega
  · rw [hout]
    exact hsorted_take
  · rw [hout, List.map_take]
    exact List.Nodup.sublist (List.take_sublist k _) hnodup
  · intro bond hbond
    rw [hout] at hbond
    rcases hsound bond (List.mem_of_mem_take hbond) with ⟨j, hvj, hbe⟩
    rw [hbe]
    exact knnBond_mem_bruteForceBall lc q qidx r_max r_min j hvj
  · intro bond hbond
    rcases (bruteForceBall_mem_iff lc q qidx r_max r_min bond).mp hbond with
      ⟨j, hlen, hwin, hbe⟩
    have hvj : knnValid lc q r_max r_min j := ⟨hlen, hwin⟩
    rw [hout]
    by_cases hin : knnBond lc q qidx j ∈ res
    · rcases hmem_of_res j hin with h | h
      · left
        rw [hbe]
        exact h
      · right
        intro bond' hb'
        rw [hbe]
        exact h bond' hb'
    · rcases hcases with hcomp | hbrk
      · exact absurd (hcomp j hvj) hin
      · right
        intro bond' hb'
        have h1 : bond'.r_sq ≤ (res.getD (k - 1) ⟨0, 0, 0⟩).r_sq :=
          sorted_take_le hsorted hk hbrk.1 hb'
        have h2 := hbrk.2 j hvj hin
        rw [hbe]
        show bond'.r_sq ≤ (knnBond lc q qidx j).r_sq
        unfold knnBond
        simp only []
        linarith

/-- Witness for C2 on the concrete 4×4×4 box with two points, `k = 1`. -/
theorem knnQuery_matches_bruteForce_witness :
    (LinkCell.construct ⟨4, 4, 4, false⟩ 1 [⟨0, 0, 0⟩, ⟨1, 0, 0⟩] = .ok lcWitness ∧
      (0 : ℚ) < 1 ∧ (0 : ℚ) ≤ 2 ∧ 1 ≤ 1 ∧ (2 : ℚ) * 2 ≤ 4) ∧
    ((knnQuery lcWitness ⟨0, 0, 0⟩ 0 1 2 0 false).length =
        min 1 (bruteForceBall lcWitness ⟨0, 0, 0⟩ 0 2 0).length ∧
      (knnQuery lcWitness ⟨0, 0, 0⟩ 0 1 2 0 false).Pairwise
        (fun b1 b2 => b1.r_sq ≤ b2.r_sq) ∧
      ((knnQuery lcWitness ⟨0, 0, 0⟩ 0 1 2 0 false).map NeighborBond.ref_id).Nodup ∧
      (∀ bond ∈ knnQuery lcWitness ⟨0, 0, 0⟩ 0 1 2 0 false,
          bond ∈ bruteForceBall lcWitness ⟨0, 0, 0⟩ 0 2 0) ∧
      (∀ bond ∈ bruteForceBall lcWitness ⟨0, 0, 0⟩ 0 2 0,
          bond ∈ knnQuery lcWitness ⟨0, 0, 0⟩ 0 1 2 0 false ∨
          ∀ bond' ∈ knnQuery lcWitness ⟨0, 0, 0⟩ 0 1 2 0 false,
            bond'.r_sq ≤ bond.r_sq)) :=
  ⟨⟨lcWitness_construct, by norm_num, by norm_num, le_refl 1, by norm_num⟩,
   knnQuery_matches_bruteForce ⟨4, 4, 4, false⟩ 1 [⟨0, 0, 0⟩, ⟨1, 0, 0⟩]
     lcWitness lcWitness_construct ⟨0, 0, 0⟩ 0 1 2 0 (by norm_num) (by norm_num)
     (le_refl 1) (by norm_num) (by norm_num) (fun h => by norm_num)
     (fun h => by simp at h)⟩
